import Mathlib

/-!
ChessLab: move generation of the sliding pieces and the state of a Piece.

A shallow embedding of `src/piece.h`, `src/pieceRook.cpp` and
`src/pieceQueen.cpp`.

* C++ `int` is modelled by `Int`; for a piece on the board the coordinates of a
  ray walk stay within one unit of the 8x8 grid, so no wrap-around is involved.
* `board[pos]` is a fallible read (`Board.get`): a position outside the grid
  yields `Fault.outOfBounds`.
* Every `while` loop runs through `whileLoop`, which counts body executions
  against a fuel budget and yields `Fault.outOfFuel` when the budget is spent.
-/

namespace ChessLab

/-! ## Data model -/

/-- Modelled from the spec: the tag set of `pieceType.h` (the header is absent
from the sources): SPACE, the six piece kinds, and the INVALID sentinel. -/
inductive PieceType where
  | SPACE | PAWN | KNIGHT | BISHOP | ROOK | QUEEN | KING | INVALID
  deriving DecidableEq, Repr

/-- Modelled from the spec: class `Position` of `position.h` (absent from the
sources): a (column, row) pair that may hold out-of-range values while a ray
is walked. `Position(c, r)` is `Position.mk c r`. -/
structure Position where
  col : Int
  row : Int
  deriving DecidableEq, Repr

/-- Modelled from the spec: `Position::getCol`. -/
def Position.getCol (p : Position) : Int := p.col

/-- Modelled from the spec: `Position::getRow`. -/
def Position.getRow (p : Position) : Int := p.row

/-- Modelled from the spec: `Position::isValid`, true iff both coordinates lie
in [0,7]. -/
def Position.isValid (p : Position) : Bool :=
  decide (0 ≤ p.col) && decide (p.col ≤ 7) && decide (0 ≤ p.row) && decide (p.row ≤ 7)

/-- Modelled from the spec: `Position::set(c, r)`, which replaces both
coordinates. -/
def Position.set (_p : Position) (c r : Int) : Position := ⟨c, r⟩

/-- Modelled from the spec: the ordering of `Position`, by (col, row). -/
def Position.lt (a b : Position) : Bool :=
  decide (a.col < b.col) || (decide (a.col = b.col) && decide (a.row < b.row))

/-- Modelled from the spec: `Move::MoveType` of `move.h` (absent from the
sources). The sources name only `MOVE`, the kind of an ordinary move; the spec
lists the kinds ORDINARY, CAPTURE and SPECIAL. -/
inductive MoveType where
  | MOVE | CAPTURE | SPECIAL
  deriving DecidableEq, Repr

/-- Modelled from the spec: class `Move` of `move.h` (absent from the sources).
The fields are the six arguments of the constructor call in
`Rook::getMoves`, in order: source, destination, a piece-type slot that the
Rook always fills with INVALID, the captured type, the move kind and the
colour of the mover. -/
structure Move where
  source : Position
  dest : Position
  promote : PieceType
  capture : PieceType
  moveType : MoveType
  isWhite : Bool
  deriving DecidableEq, Repr

/-- Modelled from the spec: `Move::operator<`, lexicographic on
(source, destination). -/
def Move.lt (a b : Move) : Bool :=
  a.source.lt b.source || (decide (a.source = b.source) && a.dest.lt b.dest)

/-- Modelled from the spec: `std::set<Move>::insert` under `Move::operator<`.
The set is kept as a strictly increasing list; a move whose (source,
destination) pair is already present is dropped, the stored one stays. -/
def setInsert (m : Move) : List Move → List Move
  | [] => [m]
  | x :: xs =>
    if m.lt x then m :: x :: xs
    else if x.lt m then x :: setInsert m xs
    else x :: xs

/-- The members of class `Piece` (`piece.h`), together with the tag that the
virtual `getType()` of the concrete class returns. -/
structure Piece where
  type : PieceType
  nMoves : Int
  fWhite : Bool
  position : Position
  lastMove : Int
  deriving DecidableEq, Repr

/-- A record equal to `Piece(const Position& pos, bool isWhite)`, for a
concrete class whose `getType()` is `t`. -/
def Piece.ofPosition (t : PieceType) (pos : Position) (isWhite : Bool) : Piece :=
  { type := t, nMoves := 0, fWhite := isWhite, position := pos, lastMove := 0 }

/-- A record equal to `Piece(int c, int r, bool isWhite)`. -/
def Piece.ofColRow (t : PieceType) (c r : Int) (isWhite : Bool) : Piece :=
  { type := t, nMoves := 0, fWhite := isWhite, position := Position.mk c r, lastMove := 0 }

/-- Method `Piece::getType`. -/
def Piece.getType (pc : Piece) : PieceType := pc.type

/-- Method `Piece::isWhite`. -/
def Piece.isWhite (pc : Piece) : Bool := pc.fWhite

/-- Method `Piece::isMoved`. -/
def Piece.isMoved (pc : Piece) : Bool := decide (pc.nMoves ≠ 0)

/-- Method `Piece::getNMoves`. -/
def Piece.getNMoves (pc : Piece) : Int := pc.nMoves

/-- Method `Piece::getLastMove`. -/
def Piece.getLastMove (pc : Piece) : Int := pc.lastMove

/-- Method `Piece::decrementNMoves`, with `nMoves--` taken in `Int`. -/
def Piece.decrementNMoves (pc : Piece) : Piece := { pc with nMoves := pc.nMoves - 1 }

/-- Method `Piece::incrementNMoves`, with `nMoves++` taken in `Int`. -/
def Piece.incrementNMoves (pc : Piece) : Piece := { pc with nMoves := pc.nMoves + 1 }

/-- Method `Piece::getPosition`. -/
def Piece.getPosition (pc : Piece) : Position := pc.position

/-- Method `Piece::justMoved`. The subtraction is taken in `Int`; the C++
expression differs only at `currentMove = INT_MIN`, where it is undefined. -/
def Piece.justMoved (pc : Piece) (currentMove : Int) : Bool :=
  decide (pc.lastMove = currentMove - 1)

/-- Method `Piece::setPosition`. -/
def Piece.setPosition (pc : Piece) (newPos : Position) : Piece :=
  { pc with position := pc.position.set newPos.getCol newPos.getRow }

/-- Modelled from the spec: `Piece::operator==(PieceType)`, declared in
`piece.h` and defined outside the sources: the piece compares equal to a tag
iff the tag is its type. -/
def Piece.eqType (pc : Piece) (pt : PieceType) : Bool := decide (pc.getType = pt)

/-- The ways a run of the model can fail. -/
inductive Fault where
  | outOfBounds
  | outOfFuel
  deriving DecidableEq, Repr

/-- Modelled from the spec: the board (`board.h` is absent from the sources)
holds one `Piece` record per square; an empty square holds a piece whose type
is SPACE. -/
def Board : Type := Position → Piece

/-- Modelled from the spec: `Board::operator[]`, defined on the 64 valid
positions only. -/
def Board.get (board : Board) (pos : Position) : Except Fault Piece :=
  if pos.isValid then .ok (board pos) else .error .outOfBounds

/-- Modelled from the spec: `struct Relative` used by `Rook::getMoves`
(declared outside the sources), laid out like `RelativePos` of `piece.h`:
column first, then row. -/
structure Relative where
  col : Int
  row : Int
  deriving DecidableEq, Repr

/-- The `struct RelativePos` of `piece.h`. -/
structure RelativePos where
  col : Int
  row : Int
  deriving DecidableEq, Repr

/-- The variables a ray walk updates: `r`, `c`, `newPos` and the move set. -/
structure Walk where
  r : Int
  c : Int
  newPos : Position
  moves : List Move
  deriving DecidableEq, Repr

/-- A `while (cond) body` loop. `fuel` bounds the number of body executions. -/
def whileLoop {σ : Type} (cond : σ → Except Fault Bool) (body : σ → Except Fault σ) :
    Nat → σ → Except Fault σ
  | fuel, s =>
    match cond s with
    | .error e => .error e
    | .ok false => .ok s
    | .ok true =>
      match fuel with
      | 0 => .error .outOfFuel
      | n + 1 =>
        match body s with
        | .error e => .error e
        | .ok s' => whileLoop cond body n s'

/-! ## Rook::getMoves (`pieceRook.cpp`) -/

/-- The table `moves[4]` of `Rook::getMoves`. -/
def Rook.moves : List Relative :=
  [⟨0, 1⟩, ⟨-1, 0⟩, ⟨1, 0⟩, ⟨0, -1⟩]

/-- The statement `possible.insert(Move(position, newPos, PieceType::INVALID,
board[newPos].getType(), Move::MoveType::MOVE, isWhite()))`. -/
def Rook.emit (self : Piece) (board : Board) (newPos : Position) (possible : List Move) :
    Except Fault (List Move) :=
  match board.get newPos with
  | .error e => .error e
  | .ok sq =>
    .ok (setInsert
      (Move.mk self.position newPos PieceType.INVALID sq.getType MoveType.MOVE self.isWhite)
      possible)

/-- The loop condition `r >= 0 && r < 8 && c >= 0 && c < 8 &&
board[newPos].getType() == PieceType::SPACE`, evaluated left to right. -/
def Rook.loopCond (board : Board) (w : Walk) : Except Fault Bool :=
  if w.r ≥ 0 ∧ w.r < 8 ∧ w.c ≥ 0 ∧ w.c < 8 then
    match board.get w.newPos with
    | .error e => .error e
    | .ok sq => .ok (decide (sq.getType = PieceType.SPACE))
  else .ok false

/-- The loop body: insert the move, step `r` and `c`, rebuild `newPos`. -/
def Rook.loopBody (self : Piece) (board : Board) (d : Relative) (w : Walk) :
    Except Fault Walk :=
  match Rook.emit self board w.newPos w.moves with
  | .error e => .error e
  | .ok possible =>
    .ok { r := w.r + d.row, c := w.c + d.col,
          newPos := Position.mk (w.c + d.col) (w.r + d.row), moves := possible }

/-- The statement after the loop: `if (newPos.isValid() && (fWhite !=
board[newPos].isWhite() || board[newPos].getType() == SPACE)) possible.insert(...)`. -/
def Rook.finalEmit (self : Piece) (board : Board) (w : Walk) : Except Fault (List Move) :=
  if w.newPos.isValid then
    match board.get w.newPos with
    | .error e => .error e
    | .ok sq =>
      if self.fWhite ≠ sq.isWhite then Rook.emit self board w.newPos w.moves
      else
        match board.get w.newPos with
        | .error e => .error e
        | .ok sq2 =>
          if sq2.getType = PieceType.SPACE then Rook.emit self board w.newPos w.moves
          else .ok w.moves
  else .ok w.moves

/-- One pass of the `for` body of `Rook::getMoves`, for the direction `d`. -/
def Rook.ray (self : Piece) (fuel : Nat) (board : Board) (d : Relative)
    (possible : List Move) : Except Fault (List Move) :=
  let row := self.position.getRow
  let col := self.position.getCol
  let r := row + d.row
  let c := col + d.col
  match whileLoop (Rook.loopCond board) (Rook.loopBody self board d) fuel
      { r := r, c := c, newPos := Position.mk c r, moves := possible } with
  | .error e => .error e
  | .ok w => Rook.finalEmit self board w

/-- The `for (int i = 0; i < 4; i++)` loop, over the remaining directions. -/
def Rook.forLoop (self : Piece) (fuel : Nat) (board : Board) :
    List Relative → List Move → Except Fault (List Move)
  | [], possible => .ok possible
  | d :: ds, possible =>
    match Rook.ray self fuel board d possible with
    | .error e => .error e
    | .ok possible' => Rook.forLoop self fuel board ds possible'

/-- `Rook::getMoves(possible, board)`; the result is the final content of
`possible`. -/
def Rook.getMoves (self : Piece) (fuel : Nat) (possible : List Move) (board : Board) :
    Except Fault (List Move) :=
  Rook.forLoop self fuel board Rook.moves possible

/-! ## Queen::getMoves (`pieceQueen.cpp`) -/

/-- Modelled from the spec: `Piece::createNewMove`, declared in `piece.h` and
defined outside the sources. It reads the board at the destination: an empty
square gives an ordinary move whose capture slot holds the INVALID sentinel,
any other square gives a capture of the occupant's type. -/
def Piece.createNewMove (self : Piece) (newPos : Position) (board : Board) :
    Except Fault Move :=
  match board.get newPos with
  | .error e => .error e
  | .ok sq =>
    if sq.getType = PieceType.SPACE then
      .ok (Move.mk self.position newPos PieceType.INVALID PieceType.INVALID MoveType.MOVE
        self.isWhite)
    else
      .ok (Move.mk self.position newPos PieceType.INVALID sq.getType MoveType.CAPTURE
        self.isWhite)

/-- The table `possible[8]` of `Queen::getMoves`. -/
def Queen.possible : List RelativePos :=
  [⟨-1, 1⟩, ⟨0, 1⟩, ⟨1, 1⟩, ⟨-1, 0⟩, ⟨1, 0⟩, ⟨-1, -1⟩, ⟨0, -1⟩, ⟨1, -1⟩]

/-- The statement `moves.insert(createNewMove(newPos, board))`. -/
def Queen.emit (self : Piece) (board : Board) (newPos : Position) (moves : List Move) :
    Except Fault (List Move) :=
  match self.createNewMove newPos board with
  | .error e => .error e
  | .ok m => .ok (setInsert m moves)

/-- The loop condition `r >= 0 && r < 8 && c >= 0 && c < 8 &&
board[newPos] == PieceType::SPACE`, evaluated left to right. -/
def Queen.loopCond (board : Board) (w : Walk) : Except Fault Bool :=
  if w.r ≥ 0 ∧ w.r < 8 ∧ w.c ≥ 0 ∧ w.c < 8 then
    match board.get w.newPos with
    | .error e => .error e
    | .ok sq => .ok (sq.eqType PieceType.SPACE)
  else .ok false

/-- The loop body: insert the move, step `r` and `c`, rebuild `newPos`. -/
def Queen.loopBody (self : Piece) (board : Board) (d : RelativePos) (w : Walk) :
    Except Fault Walk :=
  match Queen.emit self board w.newPos w.moves with
  | .error e => .error e
  | .ok moves =>
    .ok { r := w.r + d.row, c := w.c + d.col,
          newPos := Position.mk (w.c + d.col) (w.r + d.row), moves := moves }

/-- The statement after the loop: `if (newPos.isValid() && (fWhite !=
board[newPos].isWhite() || board[newPos].getType() == SPACE))
moves.insert(createNewMove(newPos, board))`. -/
def Queen.finalEmit (self : Piece) (board : Board) (w : Walk) : Except Fault (List Move) :=
  if w.newPos.isValid then
    match board.get w.newPos with
    | .error e => .error e
    | .ok sq =>
      if self.fWhite ≠ sq.isWhite then Queen.emit self board w.newPos w.moves
      else
        match board.get w.newPos with
        | .error e => .error e
        | .ok sq2 =>
          if sq2.getType = PieceType.SPACE then Queen.emit self board w.newPos w.moves
          else .ok w.moves
  else .ok w.moves

/-- One pass of the `for` body of `Queen::getMoves`, for the direction `d`. -/
def Queen.ray (self : Piece) (fuel : Nat) (board : Board) (d : RelativePos)
    (moves : List Move) : Except Fault (List Move) :=
  let row := self.position.getRow
  let col := self.position.getCol
  let r := row + d.row
  let c := col + d.col
  match whileLoop (Queen.loopCond board) (Queen.loopBody self board d) fuel
      { r := r, c := c, newPos := Position.mk c r, moves := moves } with
  | .error e => .error e
  | .ok w => Queen.finalEmit self board w

/-- The `for (int i = 0; i < 8; i++)` loop, over the remaining directions. -/
def Queen.forLoop (self : Piece) (fuel : Nat) (board : Board) :
    List RelativePos → List Move → Except Fault (List Move)
  | [], moves => .ok moves
  | d :: ds, moves =>
    match Queen.ray self fuel board d moves with
    | .error e => .error e
    | .ok moves' => Queen.forLoop self fuel board ds moves'

/-- `Queen::getMoves(moves, board)`; the result is the final content of
`moves`. -/
def Queen.getMoves (self : Piece) (fuel : Nat) (moves : List Move) (board : Board) :
    Except Fault (List Move) :=
  Queen.forLoop self fuel board Queen.possible moves

/-! ## Fixtures -/

/-- A board whose 64 squares are all SPACE. -/
def emptyBoard : Board := fun p => Piece.ofPosition PieceType.SPACE p true

/-- The board `b` with the piece `pc` placed on the square `pc.position`. -/
def Board.place (b : Board) (pc : Piece) : Board :=
  fun p => if p = pc.position then pc else b p

/-! ## Closed forms used by the proofs -/

/-- The squares one ray reaches, in the order the loop meets them: the run of
valid SPACE squares starting at column `c`, row `r` and stepping by
(`dc`, `dr`), followed by the first non-SPACE valid square when its colour
differs from `white`. At most `n` squares are inspected. -/
def rayTargets (board : Board) (white : Bool) (dc dr : Int) : Nat → Int → Int → List Position
  | 0, _, _ => []
  | n + 1, c, r =>
    if (Position.mk c r).isValid then
      if (board (Position.mk c r)).type = PieceType.SPACE then
        Position.mk c r :: rayTargets board white dc dr n (c + dc) (r + dr)
      else if white ≠ (board (Position.mk c r)).fWhite then [Position.mk c r]
      else []
    else []

/-- Insert the moves of `ms` into the set `s`, first to last. -/
def insertAll (s : List Move) (ms : List Move) : List Move :=
  ms.foldl (fun acc m => setInsert m acc) s

/-- The move a Rook builds for the destination `q`. -/
def Rook.moveTo (self : Piece) (board : Board) (q : Position) : Move :=
  Move.mk self.position q PieceType.INVALID (board q).getType MoveType.MOVE self.isWhite

/-- The move `createNewMove` builds for a valid destination `q`. -/
def Queen.moveTo (self : Piece) (board : Board) (q : Position) : Move :=
  if (board q).getType = PieceType.SPACE then
    Move.mk self.position q PieceType.INVALID PieceType.INVALID MoveType.MOVE self.isWhite
  else
    Move.mk self.position q PieceType.INVALID (board q).getType MoveType.CAPTURE self.isWhite

/-- The squares all rays of a slider at `p` reach, for the direction list
`ds` given as (column, row) steps. -/
def slideTargets (board : Board) (white : Bool) (p : Position) (ds : List (Int × Int)) :
    List Position :=
  ds.flatMap (fun d => rayTargets board white d.1 d.2 8 (p.col + d.1) (p.row + d.2))

/-- The direction table of the Rook as (column, row) steps. -/
def Rook.steps : List (Int × Int) := Rook.moves.map (fun d => (d.col, d.row))

/-- The direction table of the Queen as (column, row) steps. -/
def Queen.steps : List (Int × Int) := Queen.possible.map (fun d => (d.col, d.row))

/-- The square `k` steps from `p` in the direction (`dc`, `dr`). -/
def Position.along (p : Position) (dc dr : Int) (k : Nat) : Position :=
  Position.mk (p.col + k * dc) (p.row + k * dr)

/-! ## Vocabulary of the specification -/

/-- One of the four orthogonal unit vectors, as (column, row) steps. -/
def isOrthogonalUnit (dc dr : Int) : Prop :=
  (dc = 0 ∧ (dr = 1 ∨ dr = -1)) ∨ (dr = 0 ∧ (dc = 1 ∨ dc = -1))

/-- One of the four diagonal unit vectors. -/
def isDiagonalUnit (dc dr : Int) : Prop :=
  (dc = 1 ∨ dc = -1) ∧ (dr = 1 ∨ dr = -1)

instance (dc dr : Int) : Decidable (isOrthogonalUnit dc dr) := by
  unfold isOrthogonalUnit; infer_instance

instance (dc dr : Int) : Decidable (isDiagonalUnit dc dr) := by
  unfold isDiagonalUnit; infer_instance

/-- The square is empty: the board reports SPACE there. -/
def Board.isSpace (board : Board) (q : Position) : Prop :=
  (board q).type = PieceType.SPACE

/-- The square holds a piece (its type is not SPACE) whose colour is not
`white`. -/
def Board.isEnemy (board : Board) (white : Bool) (q : Position) : Prop :=
  (board q).type ≠ PieceType.SPACE ∧ (board q).fWhite ≠ white

/-- The square holds a piece (its type is not SPACE) whose colour is `white`. -/
def Board.isFriend (board : Board) (white : Bool) (q : Position) : Prop :=
  (board q).type ≠ PieceType.SPACE ∧ (board q).fWhite = white

instance (board : Board) (q : Position) : Decidable (board.isSpace q) := by
  unfold Board.isSpace; infer_instance

instance (board : Board) (white : Bool) (q : Position) : Decidable (board.isEnemy white q) := by
  unfold Board.isEnemy; infer_instance

instance (board : Board) (white : Bool) (q : Position) : Decidable (board.isFriend white q) := by
  unfold Board.isFriend; infer_instance

/-- The wording of the contract for a sliding piece of colour `white` on `p`:
the square `p + k*d`, with `k >= 1`, is inside the 8x8 board, every square
`p + j*d` with `1 <= j < k` is SPACE, and `p + k*d` is SPACE or holds a piece
of the opposite colour. -/
def Reaches (board : Board) (white : Bool) (p : Position) (dc dr : Int) (k : Nat) : Prop :=
  1 ≤ k ∧ (p.along dc dr k).isValid = true ∧
    (∀ j : Nat, 1 ≤ j → j < k → board.isSpace (p.along dc dr j)) ∧
    (board.isSpace (p.along dc dr k) ∨ board.isEnemy white (p.along dc dr k))

/-- The destinations of a set of moves. -/
def destinations (s : List Move) : List Position := s.map Move.dest

/-- The pair on which `Move::operator<` compares two moves. -/
def Move.key (m : Move) : Position × Position := (m.source, m.dest)

/-- The valid squares met from column `c`, row `r` when stepping by
(`dc`, `dr`), at most `n` of them: the ray on a board without blockers. -/
def openRay (dc dr : Int) : Nat → Int → Int → List Position
  | 0, _, _ => []
  | n + 1, c, r =>
    if (Position.mk c r).isValid then Position.mk c r :: openRay dc dr n (c + dc) (r + dr)
    else []

/-- The squares all rays from `p` meet on a board without blockers. -/
def openTargets (p : Position) (ds : List (Int × Int)) : List Position :=
  ds.flatMap (fun d => openRay d.1 d.2 8 (p.col + d.1) (p.row + d.2))

/-- The invariant of the specification, `moveCount == 0 <=> lastMoveIndex ==
sentinel`, with the sentinel being the value both constructors store in
`lastMove`, which is 0. -/
def Piece.invariant (pc : Piece) : Prop := pc.nMoves = 0 ↔ pc.lastMove = 0

instance (pc : Piece) : Decidable pc.invariant := by
  unfold Piece.invariant; infer_instance

/-- The facts that hold each time the loop condition of a ray is evaluated,
for a walk that started from the set `possible`. -/
def Walk.inv (board : Board) (possible : List Move) (w : Walk) : Prop :=
  w.newPos = Position.mk w.c w.r ∧ ∀ m ∈ w.moves, m ∈ possible ∨ board.isSpace m.dest

/-- A well-formed `std::set<Move>`: strictly increasing under
`Move::operator<`. -/
def isMoveSet (s : List Move) : Prop := s.Pairwise (fun a b => a.lt b = true)

/-- The board `b` with the colour flag of every SPACE square set to `w`. -/
def Board.recolourSpace (b : Board) (w : Bool) : Board :=
  fun q => if (b q).type = PieceType.SPACE then { b q with fWhite := w } else b q

/-- The two objects a call of `getMoves` can reach: the piece it is called on
and the caller's move set. -/
structure CallState where
  self : Piece
  moves : List Move

/-- A call of `Rook::getMoves` as a step on the piece and the caller's set.
The method is declared `const` and its body assigns to no member of the
piece, so the piece of the state after the call is the piece it was called
on; the set is the one `Rook.getMoves` returns. -/
def Rook.call (st : CallState) (fuel : Nat) (board : Board) : Except Fault CallState :=
  match Rook.getMoves st.self fuel st.moves board with
  | .error e => .error e
  | .ok s => .ok { self := st.self, moves := s }

/-- A call of `Queen::getMoves` as a step on the piece and the caller's set;
the method is declared `const` and its body assigns to no member of the
piece. -/
def Queen.call (st : CallState) (fuel : Nat) (board : Board) : Except Fault CallState :=
  match Queen.getMoves st.self fuel st.moves board with
  | .error e => .error e
  | .ok s => .ok { self := st.self, moves := s }

/-! ## Scenarios of the specification -/

/-- A white Rook on (0,0). -/
def rookA1 : Piece := Piece.ofColRow PieceType.ROOK 0 0 true

/-- The Rook scenario: the white Rook on (0,0), a black pawn on (0,5), every
other square SPACE. -/
def boardRookPawn : Board :=
  (emptyBoard.place rookA1).place (Piece.ofColRow PieceType.PAWN 0 5 false)

/-- A white Queen on (4,4). -/
def queenE5 : Piece := Piece.ofColRow PieceType.QUEEN 4 4 true

/-- The Queen scenario: the white Queen on (4,4), a white pawn on (4,6), every
other square SPACE. -/
def boardQueenFriend : Board :=
  (emptyBoard.place queenE5).place (Piece.ofColRow PieceType.PAWN 4 6 true)

/-- The boxed-in scenario: the white Rook on (0,0) with white pawns on (0,1)
and (1,0), every other square SPACE. -/
def boardRookBoxed : Board :=
  ((emptyBoard.place rookA1).place (Piece.ofColRow PieceType.PAWN 0 1 true)).place
    (Piece.ofColRow PieceType.PAWN 1 0 true)

/-- A move from (0,0) to (0,1) that records a captured PAWN: it has the
(source, destination) pair of the move the Rook of the Rook scenario
generates onto (0,1), and another captured type. -/
def clashMove : Move :=
  Move.mk (Position.mk 0 0) (Position.mk 0 1) PieceType.INVALID PieceType.PAWN
    MoveType.MOVE true

end ChessLab

namespace ChessLab

/-! ## Basic facts -/

theorem Position.isValid_iff (p : Position) :
    p.isValid = true ↔ 0 ≤ p.col ∧ p.col ≤ 7 ∧ 0 ≤ p.row ∧ p.row ≤ 7 := by
  simp [Position.isValid, and_assoc]

theorem Board.get_valid (board : Board) (q : Position) (h : q.isValid = true) :
    board.get q = .ok (board q) := by
  simp [Board.get, h]

theorem whileLoop_exit {σ : Type} (cond : σ → Except Fault Bool) (body : σ → Except Fault σ)
    (fuel : Nat) (s : σ) (h : cond s = .ok false) : whileLoop cond body fuel s = .ok s := by
  cases fuel <;> simp [whileLoop, h]

theorem whileLoop_step {σ : Type} (cond : σ → Except Fault Bool) (body : σ → Except Fault σ)
    (n : Nat) (s t : σ) (h : cond s = .ok true) (hb : body s = .ok t) :
    whileLoop cond body (n + 1) s = whileLoop cond body n t := by
  rw [whileLoop]
  simp [h, hb]

theorem insertAll_nil (s : List Move) : insertAll s [] = s := rfl

theorem insertAll_cons (s : List Move) (m : Move) (ms : List Move) :
    insertAll s (m :: ms) = insertAll (setInsert m s) ms := rfl

theorem insertAll_append (s : List Move) (xs ys : List Move) :
    insertAll s (xs ++ ys) = insertAll (insertAll s xs) ys := by
  simp [insertAll, List.foldl_append]

/-! ## The move set -/

theorem Position.lt_irrefl_key (a b : Position) (h1 : a.lt b = false) (h2 : b.lt a = false) :
    a = b := by
  obtain ⟨ac, ar⟩ := a
  obtain ⟨bc, br⟩ := b
  simp only [Position.lt, Bool.or_eq_false_iff, Bool.and_eq_false_iff,
    decide_eq_false_iff_not] at h1 h2
  have hc : ac = bc := by omega
  subst hc
  have hr : ar = br := by omega
  subst hr
  rfl

theorem Move.same_key (a b : Move) (h1 : a.lt b = false) (h2 : b.lt a = false) :
    a.source = b.source ∧ a.dest = b.dest := by
  simp only [Move.lt, Bool.or_eq_false_iff, Bool.and_eq_false_iff,
    decide_eq_false_iff_not] at h1 h2
  have hs : a.source = b.source := Position.lt_irrefl_key _ _ h1.1 h2.1
  refine ⟨hs, ?_⟩
  apply Position.lt_irrefl_key
  · rcases h1.2 with h | h
    · exact absurd hs h
    · exact h
  · rcases h2.2 with h | h
    · exact absurd hs.symm h
    · exact h

theorem mem_setInsert (m y : Move) : ∀ s : List Move, y ∈ setInsert m s → y = m ∨ y ∈ s := by
  intro s
  induction s with
  | nil => intro h; simp [setInsert] at h; exact Or.inl h
  | cons x xs ih =>
    intro h
    rw [setInsert] at h
    split at h
    · simp at h; rcases h with h | h | h <;> simp [h]
    · split at h
      · simp at h
        rcases h with h | h
        · simp [h]
        · rcases ih h with h | h <;> simp [h]
      · exact Or.inr h

theorem subset_setInsert (m y : Move) : ∀ s : List Move, y ∈ s → y ∈ setInsert m s := by
  intro s
  induction s with
  | nil => intro h; simp at h
  | cons x xs ih =>
    intro h
    rw [setInsert]
    split
    · exact List.mem_cons_of_mem _ h
    · split
      · simp at h
        rcases h with h | h
        · simp [h]
        · exact List.mem_cons_of_mem _ (ih h)
      · exact h

theorem key_setInsert (m : Move) :
    ∀ s : List Move, ∃ y ∈ setInsert m s, y.source = m.source ∧ y.dest = m.dest := by
  intro s
  induction s with
  | nil => exact ⟨m, by simp [setInsert], rfl, rfl⟩
  | cons x xs ih =>
    rw [setInsert]
    by_cases h1 : m.lt x = true
    · simp only [h1, if_true]
      exact ⟨m, by simp, rfl, rfl⟩
    · by_cases h2 : x.lt m = true
      · simp only [h1, h2, if_true, if_false]
        obtain ⟨y, hy, hk⟩ := ih
        exact ⟨y, List.mem_cons_of_mem _ hy, hk⟩
      · simp only [h1, h2, if_false]
        have hk := Move.same_key x m (by simpa using h2) (by simpa using h1)
        exact ⟨x, by simp, hk⟩

theorem mem_insertAll (y : Move) :
    ∀ (ms s : List Move), y ∈ insertAll s ms → y ∈ s ∨ y ∈ ms := by
  intro ms
  induction ms with
  | nil => intro s h; exact Or.inl h
  | cons m ms ih =>
    intro s h
    rw [insertAll_cons] at h
    rcases ih _ h with h | h
    · rcases mem_setInsert m y s h with h | h
      · right; simp [h]
      · exact Or.inl h
    · right; exact List.mem_cons_of_mem _ h

theorem subset_insertAll (y : Move) :
    ∀ (ms s : List Move), y ∈ s → y ∈ insertAll s ms := by
  intro ms
  induction ms with
  | nil => intro s h; exact h
  | cons m ms ih =>
    intro s h
    rw [insertAll_cons]
    exact ih _ (subset_setInsert m y s h)

theorem key_insertAll (m : Move) :
    ∀ (ms s : List Move), m ∈ ms →
      ∃ y ∈ insertAll s ms, y.source = m.source ∧ y.dest = m.dest := by
  intro ms
  induction ms with
  | nil => intro s h; simp at h
  | cons x ms ih =>
    intro s h
    rw [insertAll_cons]
    simp at h
    rcases h with h | h
    · subst h
      obtain ⟨y, hy, hk⟩ := key_setInsert m s
      exact ⟨y, subset_insertAll y ms _ hy, hk⟩
    · exact ih _ h

/-! ## The squares a ray reaches -/

theorem Position.along_zero (c r dc dr : Int) :
    (Position.mk c r).along dc dr 0 = Position.mk c r := by
  simp [Position.along]

theorem Position.along_shift (c r dc dr : Int) (k : Nat) :
    (Position.mk (c + dc) (r + dr)).along dc dr k = (Position.mk c r).along dc dr (k + 1) := by
  simp only [Position.along, Position.mk.injEq]
  constructor <;> (push_cast; ring)

theorem mem_rayTargets (board : Board) (white : Bool) (dc dr : Int) (q : Position) :
    ∀ (n : Nat) (c r : Int),
      q ∈ rayTargets board white dc dr n c r ↔
        ∃ k : Nat, k < n ∧ q = (Position.mk c r).along dc dr k ∧ q.isValid = true ∧
          (∀ i : Nat, i < k → ((Position.mk c r).along dc dr i).isValid = true ∧
            (board ((Position.mk c r).along dc dr i)).type = PieceType.SPACE) ∧
          ((board q).type = PieceType.SPACE ∨ white ≠ (board q).fWhite) := by
  intro n
  induction n with
  | zero => intro c r; simp [rayTargets]
  | succ n ih =>
    intro c r
    constructor
    · intro h
      rw [rayTargets] at h
      by_cases hv : (Position.mk c r).isValid = true
      · by_cases hs : (board (Position.mk c r)).type = PieceType.SPACE
        · simp only [hv, hs, if_true, List.mem_cons] at h
          rcases h with h | h
          · refine ⟨0, by omega, ?_, ?_, ?_, ?_⟩
            · rw [Position.along_zero]; exact h
            · rw [h]; exact hv
            · intro i hi; omega
            · rw [h]; exact Or.inl hs
          · obtain ⟨k, hk, hq, hqv, hpath, hend⟩ := (ih _ _).1 h
            refine ⟨k + 1, by omega, ?_, hqv, ?_, hend⟩
            · rw [← Position.along_shift]; exact hq
            · intro i hi
              cases i with
              | zero => rw [Position.along_zero]; exact ⟨hv, hs⟩
              | succ i =>
                rw [← Position.along_shift]
                exact hpath i (by omega)
        · simp only [hv, hs, if_true, if_false] at h
          by_cases hw : white ≠ (board (Position.mk c r)).fWhite
          · simp only [hw, not_false_eq_true, if_true, List.mem_singleton, ne_eq] at h
            refine ⟨0, by omega, ?_, ?_, ?_, ?_⟩
            · rw [Position.along_zero]; exact h
            · rw [h]; exact hv
            · intro i hi; omega
            · rw [h]; exact Or.inr hw
          · simp [hw] at h
      · simp [hv] at h
    · rintro ⟨k, hk, hq, hqv, hpath, hend⟩
      rw [rayTargets]
      cases k with
      | zero =>
        rw [Position.along_zero] at hq
        subst hq
        by_cases hs : (board (Position.mk c r)).type = PieceType.SPACE
        · simp [hqv, hs]
        · rcases hend with h | h
          · exact absurd h hs
          · simp [hqv, hs, h]
      | succ k =>
        have h0 := hpath 0 (by omega)
        rw [Position.along_zero] at h0
        simp only [h0.1, h0.2, if_true, List.mem_cons]
        right
        apply (ih _ _).2
        refine ⟨k, by omega, ?_, hqv, ?_, hend⟩
        · rw [Position.along_shift]; exact hq
        · intro i hi
          rw [Position.along_shift]
          exact hpath (i + 1) (by omega)

theorem mem_slideTargets (board : Board) (white : Bool) (p q : Position)
    (ds : List (Int × Int)) :
    q ∈ slideTargets board white p ds ↔
      ∃ d ∈ ds, ∃ k : Nat, 1 ≤ k ∧ k ≤ 8 ∧ q = p.along d.1 d.2 k ∧ q.isValid = true ∧
        (∀ i : Nat, 1 ≤ i → i < k → (p.along d.1 d.2 i).isValid = true ∧
          (board (p.along d.1 d.2 i)).type = PieceType.SPACE) ∧
        ((board q).type = PieceType.SPACE ∨ white ≠ (board q).fWhite) := by
  obtain ⟨pc, pr⟩ := p
  simp only [slideTargets, List.mem_flatMap, mem_rayTargets]
  constructor
  · rintro ⟨d, hd, k, hk, hq, hqv, hpath, hend⟩
    refine ⟨d, hd, k + 1, by omega, by omega, ?_, hqv, ?_, hend⟩
    · rw [← Position.along_shift]; exact hq
    · intro i h1 hi
      obtain ⟨j, rfl⟩ : ∃ j, i = j + 1 := ⟨i - 1, by omega⟩
      rw [← Position.along_shift]
      exact hpath j (by omega)
  · rintro ⟨d, hd, k, h1, hk, hq, hqv, hpath, hend⟩
    obtain ⟨j, rfl⟩ : ∃ j, k = j + 1 := ⟨k - 1, by omega⟩
    refine ⟨d, hd, j, by omega, ?_, hqv, ?_, hend⟩
    · rw [Position.along_shift]; exact hq
    · intro i hi
      rw [Position.along_shift]
      exact hpath (i + 1) (by omega) (by omega)

/-! ## The Rook's loop against its closed form -/

theorem rook_loopCond_invalid (board : Board) (r c : Int) (s : List Move)
    (h : (Position.mk c r).isValid = false) :
    Rook.loopCond board ⟨r, c, ⟨c, r⟩, s⟩ = .ok false := by
  have h' : ¬ (r ≥ 0 ∧ r < 8 ∧ c ≥ 0 ∧ c < 8) := by
    intro hh
    have : (Position.mk c r).isValid = true := by
      rw [Position.isValid_iff]; simp; omega
    simp [h] at this
  simp [Rook.loopCond, h']

theorem rook_loopCond_valid (board : Board) (r c : Int) (s : List Move)
    (h : (Position.mk c r).isValid = true) :
    Rook.loopCond board ⟨r, c, ⟨c, r⟩, s⟩
      = .ok (decide ((board ⟨c, r⟩).type = PieceType.SPACE)) := by
  have h' : r ≥ 0 ∧ r < 8 ∧ c ≥ 0 ∧ c < 8 := by
    rw [Position.isValid_iff] at h; simp at h; omega
  simp [Rook.loopCond, h', Board.get_valid board _ h, Piece.getType]

theorem rook_emit_valid (self : Piece) (board : Board) (q : Position) (s : List Move)
    (h : q.isValid = true) :
    Rook.emit self board q s = .ok (setInsert (Rook.moveTo self board q) s) := by
  simp [Rook.emit, Board.get_valid board _ h, Rook.moveTo]

theorem rook_walk_eq (self : Piece) (board : Board) (d : Relative) :
    ∀ (n fuel : Nat) (c r : Int) (s : List Move), n ≤ fuel →
      ((Position.mk c r).isValid = false ∨
        (Position.mk (c + n * d.col) (r + n * d.row)).isValid = false) →
      (match whileLoop (Rook.loopCond board) (Rook.loopBody self board d) fuel
          ⟨r, c, ⟨c, r⟩, s⟩ with
        | Except.error e => Except.error e
        | Except.ok w => Rook.finalEmit self board w)
        = Except.ok (insertAll s
            ((rayTargets board self.fWhite d.col d.row n c r).map (Rook.moveTo self board))) := by
  intro n
  induction n with
  | zero =>
    intro fuel c r s _ hout
    have hv : (Position.mk c r).isValid = false := by
      rcases hout with h | h
      · exact h
      · simpa using h
    rw [whileLoop_exit _ _ _ _ (rook_loopCond_invalid board r c s hv)]
    simp [Rook.finalEmit, hv, rayTargets, insertAll_nil]
  | succ n ih =>
    intro fuel c r s hle hout
    by_cases hv : (Position.mk c r).isValid = true
    · by_cases hs : (board ⟨c, r⟩).type = PieceType.SPACE
      · obtain ⟨f, rfl⟩ : ∃ f, fuel = f + 1 := ⟨fuel - 1, by omega⟩
        have hc := rook_loopCond_valid board r c s hv
        simp only [hs, decide_True] at hc
        have hb : Rook.loopBody self board d ⟨r, c, ⟨c, r⟩, s⟩
            = .ok ⟨r + d.row, c + d.col, ⟨c + d.col, r + d.row⟩,
                setInsert (Rook.moveTo self board ⟨c, r⟩) s⟩ := by
          simp [Rook.loopBody, rook_emit_valid self board _ s hv]
        rw [whileLoop_step _ _ _ _ _ hc hb]
        have hout' : (Position.mk (c + d.col) (r + d.row)).isValid = false ∨
            (Position.mk (c + d.col + n * d.col) (r + d.row + n * d.row)).isValid = false := by
          right
          rcases hout with h | h
          · simp [hv] at h
          · have e1 : c + d.col + n * d.col = c + ((n + 1 : Nat) : Int) * d.col := by
              push_cast; ring
            have e2 : r + d.row + n * d.row = r + ((n + 1 : Nat) : Int) * d.row := by
              push_cast; ring
            rw [e1, e2]; exact h
        rw [ih f (c + d.col) (r + d.row) _ (by omega) hout']
        simp [rayTargets, hv, hs, insertAll_cons]
      · have hc := rook_loopCond_valid board r c s hv
        simp only [hs, decide_False] at hc
        rw [whileLoop_exit _ _ _ _ hc]
        by_cases hw : self.fWhite = (board ⟨c, r⟩).fWhite
        · simp [Rook.finalEmit, hv, Board.get_valid board _ hv, Piece.isWhite, Piece.getType,
            hs, hw, rayTargets, insertAll_nil]
        · simp [Rook.finalEmit, hv, Board.get_valid board _ hv, Piece.isWhite, hw,
            rook_emit_valid self board _ s hv, rayTargets, hs, insertAll_cons, insertAll_nil]
    · have hv' : (Position.mk c r).isValid = false := by simpa using hv
      rw [whileLoop_exit _ _ _ _ (rook_loopCond_invalid board r c s hv')]
      simp [Rook.finalEmit, hv', rayTargets, insertAll_nil]

theorem rayTargets_succ (board : Board) (white : Bool) (dc dr : Int) :
    ∀ (n : Nat) (c r : Int),
      ((Position.mk c r).isValid = false ∨
        (Position.mk (c + n * dc) (r + n * dr)).isValid = false) →
      rayTargets board white dc dr (n + 1) c r = rayTargets board white dc dr n c r := by
  intro n
  induction n with
  | zero =>
    intro c r hout
    have hv : (Position.mk c r).isValid = false := by
      rcases hout with h | h
      · exact h
      · simpa using h
    simp [rayTargets, hv]
  | succ n ih =>
    intro c r hout
    by_cases hv : (Position.mk c r).isValid = true
    · have hout' : (Position.mk (c + dc) (r + dr)).isValid = false ∨
          (Position.mk (c + dc + n * dc) (r + dr + n * dr)).isValid = false := by
        right
        rcases hout with h | h
        · simp [hv] at h
        · have e1 : c + dc + n * dc = c + ((n + 1 : Nat) : Int) * dc := by push_cast; ring
          have e2 : r + dr + n * dr = r + ((n + 1 : Nat) : Int) * dr := by push_cast; ring
          rw [e1, e2]; exact h
      have h := ih (c + dc) (r + dr) hout'
      rw [rayTargets, h]
      conv_rhs => rw [rayTargets]
    · have hv' : (Position.mk c r).isValid = false := by simpa using hv
      simp [rayTargets, hv']

theorem span_eight (c r dc dr : Int) (hd : dc ≠ 0 ∨ dr ≠ 0) :
    (Position.mk c r).isValid = false ∨
      (Position.mk (c + (8 : Nat) * dc) (r + (8 : Nat) * dr)).isValid = false := by
  by_cases h1 : (Position.mk c r).isValid = true
  · right
    by_contra h2
    have h2' : (Position.mk (c + (8 : Nat) * dc) (r + (8 : Nat) * dr)).isValid = true := by
      simpa using h2
    rw [Position.isValid_iff] at h1 h2'
    simp at h1 h2'
    omega
  · left; simpa using h1

theorem span_seven (p : Position) (dc dr : Int) (hp : p.isValid = true)
    (hd : dc ≠ 0 ∨ dr ≠ 0) :
    (Position.mk (p.col + dc) (p.row + dr)).isValid = false ∨
      (Position.mk (p.col + dc + (7 : Nat) * dc) (p.row + dr + (7 : Nat) * dr)).isValid
        = false := by
  right
  by_contra h2
  have h2' : (Position.mk (p.col + dc + (7 : Nat) * dc) (p.row + dr + (7 : Nat) * dr)).isValid
      = true := by simpa using h2
  rw [Position.isValid_iff] at hp h2'
  simp at h2'
  omega

theorem rook_ray_eq (self : Piece) (fuel : Nat) (board : Board) (d : Relative)
    (s : List Move) (hd : d.col ≠ 0 ∨ d.row ≠ 0)
    (hf : 8 ≤ fuel ∨ (7 ≤ fuel ∧ self.position.isValid = true)) :
    Rook.ray self fuel board d s
      = .ok (insertAll s
          ((rayTargets board self.fWhite d.col d.row 8
              (self.position.col + d.col) (self.position.row + d.row)).map
            (Rook.moveTo self board))) := by
  unfold Rook.ray
  simp only [Position.getRow, Position.getCol]
  rcases hf with hf | ⟨hf, hp⟩
  · exact rook_walk_eq self board d 8 fuel _ _ s hf (span_eight _ _ _ _ hd)
  · have h7 := span_seven self.position d.col d.row hp hd
    rw [rook_walk_eq self board d 7 fuel _ _ s hf h7, rayTargets_succ _ _ _ _ 7 _ _ h7]

theorem rook_forLoop_eq (self : Piece) (fuel : Nat) (board : Board)
    (hf : 8 ≤ fuel ∨ (7 ≤ fuel ∧ self.position.isValid = true)) :
    ∀ (ds : List Relative) (s : List Move), (∀ d ∈ ds, d.col ≠ 0 ∨ d.row ≠ 0) →
      Rook.forLoop self fuel board ds s
        = .ok (insertAll s
            ((slideTargets board self.fWhite self.position
                (ds.map (fun d => (d.col, d.row)))).map (Rook.moveTo self board))) := by
  intro ds
  induction ds with
  | nil => intro s _; simp [Rook.forLoop, slideTargets, insertAll_nil]
  | cons d ds ih =>
    intro s hds
    have hd := hds d (List.mem_cons_self _ _)
    have hds' : ∀ e ∈ ds, e.col ≠ 0 ∨ e.row ≠ 0 := fun e he => hds e (List.mem_cons_of_mem _ he)
    rw [Rook.forLoop, rook_ray_eq self fuel board d s hd hf]
    simp only
    rw [ih _ hds']
    simp [slideTargets, insertAll_append]

theorem rook_getMoves_eq (self : Piece) (fuel : Nat) (possible : List Move) (board : Board)
    (hf : 8 ≤ fuel ∨ (7 ≤ fuel ∧ self.position.isValid = true)) :
    Rook.getMoves self fuel possible board
      = .ok (insertAll possible
          ((slideTargets board self.fWhite self.position Rook.steps).map
            (Rook.moveTo self board))) := by
  unfold Rook.getMoves Rook.steps
  apply rook_forLoop_eq self fuel board hf
  intro d hd
  simp [Rook.moves] at hd
  rcases hd with rfl | rfl | rfl | rfl <;> simp

/-! ## The Queen's loop against its closed form -/

theorem queen_loopCond_invalid (board : Board) (r c : Int) (s : List Move)
    (h : (Position.mk c r).isValid = false) :
    Queen.loopCond board ⟨r, c, ⟨c, r⟩, s⟩ = .ok false := by
  have h' : ¬ (r ≥ 0 ∧ r < 8 ∧ c ≥ 0 ∧ c < 8) := by
    intro hh
    have : (Position.mk c r).isValid = true := by
      rw [Position.isValid_iff]; simp; omega
    simp [h] at this
  simp [Queen.loopCond, h']

theorem queen_loopCond_valid (board : Board) (r c : Int) (s : List Move)
    (h : (Position.mk c r).isValid = true) :
    Queen.loopCond board ⟨r, c, ⟨c, r⟩, s⟩
      = .ok (decide ((board ⟨c, r⟩).type = PieceType.SPACE)) := by
  have h' : r ≥ 0 ∧ r < 8 ∧ c ≥ 0 ∧ c < 8 := by
    rw [Position.isValid_iff] at h; simp at h; omega
  simp [Queen.loopCond, h', Board.get_valid board _ h, Piece.eqType, Piece.getType]

theorem queen_emit_valid (self : Piece) (board : Board) (q : Position) (s : List Move)
    (h : q.isValid = true) :
    Queen.emit self board q s = .ok (setInsert (Queen.moveTo self board q) s) := by
  by_cases hs : (board q).getType = PieceType.SPACE <;>
    simp [Queen.emit, Piece.createNewMove, Board.get_valid board _ h, Queen.moveTo, hs]

theorem queen_walk_eq (self : Piece) (board : Board) (d : RelativePos) :
    ∀ (n fuel : Nat) (c r : Int) (s : List Move), n ≤ fuel →
      ((Position.mk c r).isValid = false ∨
        (Position.mk (c + n * d.col) (r + n * d.row)).isValid = false) →
      (match whileLoop (Queen.loopCond board) (Queen.loopBody self board d) fuel
          ⟨r, c, ⟨c, r⟩, s⟩ with
        | Except.error e => Except.error e
        | Except.ok w => Queen.finalEmit self board w)
        = Except.ok (insertAll s
            ((rayTargets board self.fWhite d.col d.row n c r).map (Queen.moveTo self board))) := by
  intro n
  induction n with
  | zero =>
    intro fuel c r s _ hout
    have hv : (Position.mk c r).isValid = false := by
      rcases hout with h | h
      · exact h
      · simpa using h
    rw [whileLoop_exit _ _ _ _ (queen_loopCond_invalid board r c s hv)]
    simp [Queen.finalEmit, hv, rayTargets, insertAll_nil]
  | succ n ih =>
    intro fuel c r s hle hout
    by_cases hv : (Position.mk c r).isValid = true
    · by_cases hs : (board ⟨c, r⟩).type = PieceType.SPACE
      · obtain ⟨f, rfl⟩ : ∃ f, fuel = f + 1 := ⟨fuel - 1, by omega⟩
        have hc := queen_loopCond_valid board r c s hv
        simp only [hs, decide_True] at hc
        have hb : Queen.loopBody self board d ⟨r, c, ⟨c, r⟩, s⟩
            = .ok ⟨r + d.row, c + d.col, ⟨c + d.col, r + d.row⟩,
                setInsert (Queen.moveTo self board ⟨c, r⟩) s⟩ := by
          simp [Queen.loopBody, queen_emit_valid self board _ s hv]
        rw [whileLoop_step _ _ _ _ _ hc hb]
        have hout' : (Position.mk (c + d.col) (r + d.row)).isValid = false ∨
            (Position.mk (c + d.col + n * d.col) (r + d.row + n * d.row)).isValid = false := by
          right
          rcases hout with h | h
          · simp [hv] at h
          · have e1 : c + d.col + n * d.col = c + ((n + 1 : Nat) : Int) * d.col := by
              push_cast; ring
            have e2 : r + d.row + n * d.row = r + ((n + 1 : Nat) : Int) * d.row := by
              push_cast; ring
            rw [e1, e2]; exact h
        rw [ih f (c + d.col) (r + d.row) _ (by omega) hout']
        simp [rayTargets, hv, hs, insertAll_cons]
      · have hc := queen_loopCond_valid board r c s hv
        simp only [hs, decide_False] at hc
        rw [whileLoop_exit _ _ _ _ hc]
        by_cases hw : self.fWhite = (board ⟨c, r⟩).fWhite
        · simp [Queen.finalEmit, hv, Board.get_valid board _ hv, Piece.isWhite, Piece.getType,
            hs, hw, rayTargets, insertAll_nil]
        · simp [Queen.finalEmit, hv, Board.get_valid board _ hv, Piece.isWhite, hw,
            queen_emit_valid self board _ s hv, rayTargets, hs, insertAll_cons, insertAll_nil]
    · have hv' : (Position.mk c r).isValid = false := by simpa using hv
      rw [whileLoop_exit _ _ _ _ (queen_loopCond_invalid board r c s hv')]
      simp [Queen.finalEmit, hv', rayTargets, insertAll_nil]

theorem queen_ray_eq (self : Piece) (fuel : Nat) (board : Board) (d : RelativePos)
    (s : List Move) (hd : d.col ≠ 0 ∨ d.row ≠ 0)
    (hf : 8 ≤ fuel ∨ (7 ≤ fuel ∧ self.position.isValid = true)) :
    Queen.ray self fuel board d s
      = .ok (insertAll s
          ((rayTargets board self.fWhite d.col d.row 8
              (self.position.col + d.col) (self.position.row + d.row)).map
            (Queen.moveTo self board))) := by
  unfold Queen.ray
  simp only [Position.getRow, Position.getCol]
  rcases hf with hf | ⟨hf, hp⟩
  · exact queen_walk_eq self board d 8 fuel _ _ s hf (span_eight _ _ _ _ hd)
  · have h7 := span_seven self.position d.col d.row hp hd
    rw [queen_walk_eq self board d 7 fuel _ _ s hf h7, rayTargets_succ _ _ _ _ 7 _ _ h7]

theorem queen_forLoop_eq (self : Piece) (fuel : Nat) (board : Board)
    (hf : 8 ≤ fuel ∨ (7 ≤ fuel ∧ self.position.isValid = true)) :
    ∀ (ds : List RelativePos) (s : List Move), (∀ d ∈ ds, d.col ≠ 0 ∨ d.row ≠ 0) →
      Queen.forLoop self fuel board ds s
        = .ok (insertAll s
            ((slideTargets board self.fWhite self.position
                (ds.map (fun d => (d.col, d.row)))).map (Queen.moveTo self board))) := by
  intro ds
  induction ds with
  | nil => intro s _; simp [Queen.forLoop, slideTargets, insertAll_nil]
  | cons d ds ih =>
    intro s hds
    have hd := hds d (List.mem_cons_self _ _)
    have hds' : ∀ e ∈ ds, e.col ≠ 0 ∨ e.row ≠ 0 := fun e he => hds e (List.mem_cons_of_mem _ he)
    rw [Queen.forLoop, queen_ray_eq self fuel board d s hd hf]
    simp only
    rw [ih _ hds']
    simp [slideTargets, insertAll_append]

theorem queen_getMoves_eq (self : Piece) (fuel : Nat) (possible : List Move) (board : Board)
    (hf : 8 ≤ fuel ∨ (7 ≤ fuel ∧ self.position.isValid = true)) :
    Queen.getMoves self fuel possible board
      = .ok (insertAll possible
          ((slideTargets board self.fWhite self.position Queen.steps).map
            (Queen.moveTo self board))) := by
  unfold Queen.getMoves Queen.steps
  apply queen_forLoop_eq self fuel board hf
  intro d hd
  simp [Queen.possible] at hd
  rcases hd with rfl | rfl | rfl | rfl | rfl | rfl | rfl | rfl <;> simp

/-! ## Geometry of the rays -/

theorem mem_Rook_steps (d : Int × Int) : d ∈ Rook.steps ↔ isOrthogonalUnit d.1 d.2 := by
  obtain ⟨dc, dr⟩ := d
  simp only [Rook.steps, Rook.moves, List.map_cons, List.map_nil, List.mem_cons,
    Prod.mk.injEq, List.mem_nil_iff, or_false, isOrthogonalUnit]
  omega

theorem mem_Queen_steps (d : Int × Int) :
    d ∈ Queen.steps ↔ isOrthogonalUnit d.1 d.2 ∨ isDiagonalUnit d.1 d.2 := by
  obtain ⟨dc, dr⟩ := d
  simp only [Queen.steps, Queen.possible, List.map_cons, List.map_nil, List.mem_cons,
    Prod.mk.injEq, List.mem_nil_iff, or_false, isOrthogonalUnit, isDiagonalUnit]
  omega

theorem unit_cases (dc dr : Int) (h : isOrthogonalUnit dc dr ∨ isDiagonalUnit dc dr) :
    (dc = -1 ∨ dc = 0 ∨ dc = 1) ∧ (dr = -1 ∨ dr = 0 ∨ dr = 1) ∧ (dc ≠ 0 ∨ dr ≠ 0) := by
  simp only [isOrthogonalUnit, isDiagonalUnit] at h
  omega

theorem along_between (p : Position) (dc dr : Int) (i k : Nat)
    (hd : isOrthogonalUnit dc dr ∨ isDiagonalUnit dc dr)
    (hp : p.isValid = true) (hk : (p.along dc dr k).isValid = true) (hik : i ≤ k) :
    (p.along dc dr i).isValid = true := by
  obtain ⟨hc, hr, _⟩ := unit_cases dc dr hd
  rw [Position.isValid_iff] at hp hk ⊢
  simp only [Position.along] at hk ⊢
  rcases hc with rfl | rfl | rfl <;> rcases hr with rfl | rfl | rfl <;> simp at hk ⊢ <;> omega

theorem along_bound (p : Position) (dc dr : Int) (k : Nat)
    (hd : isOrthogonalUnit dc dr ∨ isDiagonalUnit dc dr)
    (hp : p.isValid = true) (hk : (p.along dc dr k).isValid = true) : k ≤ 7 := by
  obtain ⟨hc, hr, hne⟩ := unit_cases dc dr hd
  rw [Position.isValid_iff] at hp hk
  simp only [Position.along] at hk
  rcases hc with rfl | rfl | rfl <;> rcases hr with rfl | rfl | rfl <;> simp at hk hne <;> omega

theorem unit_mul (n : Nat) (e : Int) (h : e = -1 ∨ e = 0 ∨ e = 1) :
    (e = -1 ∧ (n : Int) * e = -(n : Int)) ∨ (e = 0 ∧ (n : Int) * e = 0) ∨
      (e = 1 ∧ (n : Int) * e = (n : Int)) := by
  rcases h with rfl | rfl | rfl <;> simp

theorem along_inj (p : Position) (dc dr ec er : Int) (k j : Nat)
    (hd : isOrthogonalUnit dc dr ∨ isDiagonalUnit dc dr)
    (he : isOrthogonalUnit ec er ∨ isDiagonalUnit ec er)
    (hk : 1 ≤ k) (hj : 1 ≤ j) (h : p.along dc dr k = p.along ec er j) :
    dc = ec ∧ dr = er ∧ k = j := by
  obtain ⟨hc, hr, hne⟩ := unit_cases dc dr hd
  obtain ⟨hc', hr', hne'⟩ := unit_cases ec er he
  simp only [Position.along, Position.mk.injEq] at h
  obtain ⟨h1, h2⟩ := h
  have m1 := unit_mul k dc hc
  have m2 := unit_mul k dr hr
  have m3 := unit_mul j ec hc'
  have m4 := unit_mul j er hr'
  omega

theorem along_ne_self (p : Position) (dc dr : Int) (k : Nat)
    (hd : isOrthogonalUnit dc dr ∨ isDiagonalUnit dc dr) (hk : 1 ≤ k) :
    p.along dc dr k ≠ p := by
  obtain ⟨hc, hr, hne⟩ := unit_cases dc dr hd
  obtain ⟨c, r⟩ := p
  simp only [Position.along, ne_eq, Position.mk.injEq]
  rcases hc with rfl | rfl | rfl <;> rcases hr with rfl | rfl | rfl <;>
    simp at hne ⊢ <;> omega

/-- For a piece on a valid square the closed form agrees with the wording of
the contract. -/
theorem mem_slideTargets_valid (board : Board) (white : Bool) (p q : Position)
    (ds : List (Int × Int)) (hp : p.isValid = true)
    (hds : ∀ d ∈ ds, isOrthogonalUnit d.1 d.2 ∨ isDiagonalUnit d.1 d.2) :
    q ∈ slideTargets board white p ds ↔
      ∃ d ∈ ds, ∃ k : Nat, Reaches board white p d.1 d.2 k ∧ q = p.along d.1 d.2 k := by
  rw [mem_slideTargets]
  constructor
  · rintro ⟨d, hd, k, h1, _, hq, hqv, hpath, hend⟩
    refine ⟨d, hd, k, ⟨h1, hq ▸ hqv, fun j hj1 hjk => (hpath j hj1 hjk).2, ?_⟩, hq⟩
    rw [← hq]
    by_cases hs : (board q).type = PieceType.SPACE
    · exact Or.inl hs
    · rcases hend with h | h
      · exact Or.inl h
      · exact Or.inr ⟨hs, fun e => h e.symm⟩
  · rintro ⟨d, hd, k, ⟨h1, hkv, hpath, hend⟩, hq⟩
    have hu := hds d hd
    refine ⟨d, hd, k, h1, ?_, hq, hq ▸ hkv, ?_, ?_⟩
    · have := along_bound p d.1 d.2 k hu hp hkv
      omega
    · intro i hi1 hik
      exact ⟨along_between p d.1 d.2 i k hu hp hkv (by omega), hpath i hi1 hik⟩
    · rw [hq]
      rcases hend with h | h
      · exact Or.inl h
      · exact Or.inr (fun e => h.2 e.symm)

theorem mem_destinations_insertAll (mk : Position → Move) (hmk : ∀ q, (mk q).dest = q)
    (ts : List Position) (q : Position) :
    q ∈ destinations (insertAll [] (ts.map mk)) ↔ q ∈ ts := by
  simp only [destinations, List.mem_map]
  constructor
  · rintro ⟨m, hm, rfl⟩
    rcases mem_insertAll m _ _ hm with h | h
    · simp at h
    · simp only [List.mem_map] at h
      obtain ⟨t, ht, rfl⟩ := h
      rw [hmk]; exact ht
  · intro hq
    obtain ⟨y, hy, _, hd⟩ := key_insertAll (mk q) (ts.map mk) [] (List.mem_map_of_mem mk hq)
    exact ⟨y, hy, by rw [hd, hmk]⟩

theorem rook_moveTo_dest (self : Piece) (board : Board) (q : Position) :
    (Rook.moveTo self board q).dest = q := rfl

theorem queen_moveTo_dest (self : Piece) (board : Board) (q : Position) :
    (Queen.moveTo self board q).dest = q := by
  unfold Queen.moveTo; split <;> rfl

theorem rook_moveTo_source (self : Piece) (board : Board) (q : Position) :
    (Rook.moveTo self board q).source = self.position := rfl

theorem queen_moveTo_source (self : Piece) (board : Board) (q : Position) :
    (Queen.moveTo self board q).source = self.position := by
  unfold Queen.moveTo; split <;> rfl

/-! ## The contract of the sliding pieces -/

/-- C1: for a Rook of either colour on a valid square, with fuel for seven
loop iterations per ray, `Rook::getMoves` started from the empty set returns,
and its destinations are exactly the squares `p + k*d` with `d` an orthogonal
unit vector and `k >= 1` that are on the board, have only SPACE squares
strictly between them and `p`, and are SPACE or hold an opposite-colour
piece. -/
theorem rook_getMoves_destinations (self : Piece) (board : Board) (fuel : Nat)
    (hp : self.position.isValid = true) (hf : 7 ≤ fuel) :
    ∃ s, Rook.getMoves self fuel [] board = .ok s ∧
      ∀ q : Position, q ∈ destinations s ↔
        ∃ dc dr : Int, isOrthogonalUnit dc dr ∧
          ∃ k : Nat, Reaches board self.fWhite self.position dc dr k ∧
            q = self.position.along dc dr k := by
  refine ⟨_, rook_getMoves_eq self fuel [] board (Or.inr ⟨hf, hp⟩), ?_⟩
  intro q
  rw [mem_destinations_insertAll _ (rook_moveTo_dest self board),
    mem_slideTargets_valid board _ _ _ _ hp
      (fun d hd => Or.inl ((mem_Rook_steps d).1 hd))]
  constructor
  · rintro ⟨d, hd, k, hr, hq⟩
    exact ⟨d.1, d.2, (mem_Rook_steps d).1 hd, k, hr, hq⟩
  · rintro ⟨dc, dr, hd, k, hr, hq⟩
    exact ⟨(dc, dr), (mem_Rook_steps (dc, dr)).2 hd, k, hr, hq⟩

/-- C2: for a Queen of either colour on a valid square, with fuel for seven
loop iterations per ray, `Queen::getMoves` started from the empty set returns,
and its destinations are exactly the squares `p + k*d` with `d` one of the
eight unit vectors and `k >= 1` that are on the board, have only SPACE squares
strictly between them and `p`, and are SPACE or hold an opposite-colour
piece. -/
theorem queen_getMoves_destinations (self : Piece) (board : Board) (fuel : Nat)
    (hp : self.position.isValid = true) (hf : 7 ≤ fuel) :
    ∃ s, Queen.getMoves self fuel [] board = .ok s ∧
      ∀ q : Position, q ∈ destinations s ↔
        ∃ dc dr : Int, (isOrthogonalUnit dc dr ∨ isDiagonalUnit dc dr) ∧
          ∃ k : Nat, Reaches board self.fWhite self.position dc dr k ∧
            q = self.position.along dc dr k := by
  refine ⟨_, queen_getMoves_eq self fuel [] board (Or.inr ⟨hf, hp⟩), ?_⟩
  intro q
  rw [mem_destinations_insertAll _ (queen_moveTo_dest self board),
    mem_slideTargets_valid board _ _ _ _ hp
      (fun d hd => (mem_Queen_steps d).1 hd)]
  constructor
  · rintro ⟨d, hd, k, hr, hq⟩
    exact ⟨d.1, d.2, (mem_Queen_steps d).1 hd, k, hr, hq⟩
  · rintro ⟨dc, dr, hd, k, hr, hq⟩
    exact ⟨(dc, dr), (mem_Queen_steps (dc, dr)).2 hd, k, hr, hq⟩

/-- C1, at the Rook scenario of the specification. -/
theorem rook_getMoves_destinations_witness :
    rookA1.position.isValid = true ∧ 7 ≤ 7 ∧
      ∃ s, Rook.getMoves rookA1 7 [] boardRookPawn = .ok s ∧
        ∀ q : Position, q ∈ destinations s ↔
          ∃ dc dr : Int, isOrthogonalUnit dc dr ∧
            ∃ k : Nat, Reaches boardRookPawn rookA1.fWhite rookA1.position dc dr k ∧
              q = rookA1.position.along dc dr k :=
  ⟨by decide, by decide,
    rook_getMoves_destinations rookA1 boardRookPawn 7 (by decide) (by decide)⟩

/-- C2, at the Queen scenario of the specification. -/
theorem queen_getMoves_destinations_witness :
    queenE5.position.isValid = true ∧ 7 ≤ 7 ∧
      ∃ s, Queen.getMoves queenE5 7 [] boardQueenFriend = .ok s ∧
        ∀ q : Position, q ∈ destinations s ↔
          ∃ dc dr : Int, (isOrthogonalUnit dc dr ∨ isDiagonalUnit dc dr) ∧
            ∃ k : Nat, Reaches boardQueenFriend queenE5.fWhite queenE5.position dc dr k ∧
              q = queenE5.position.along dc dr k :=
  ⟨by decide, by decide,
    queen_getMoves_destinations queenE5 boardQueenFriend 7 (by decide) (by decide)⟩

/-! ## Soundness of the generated moves -/

theorem slideTargets_sound (board : Board) (white : Bool) (p q : Position)
    (ds : List (Int × Int))
    (hds : ∀ d ∈ ds, isOrthogonalUnit d.1 d.2 ∨ isDiagonalUnit d.1 d.2)
    (hq : q ∈ slideTargets board white p ds) :
    q.isValid = true ∧ q ≠ p ∧ ¬ board.isFriend white q := by
  rw [mem_slideTargets] at hq
  obtain ⟨d, hd, k, h1, _, hqk, hqv, _, hend⟩ := hq
  refine ⟨hqv, ?_, ?_⟩
  · rw [hqk]; exact along_ne_self p d.1 d.2 k (hds d hd) h1
  · rintro ⟨hocc, hcol⟩
    rcases hend with h | h
    · exact hocc h
    · exact h hcol.symm

theorem slideTargets_no_jump (board : Board) (white : Bool) (p : Position)
    (ds : List (Int × Int))
    (hds : ∀ d ∈ ds, isOrthogonalUnit d.1 d.2 ∨ isDiagonalUnit d.1 d.2)
    (dc dr : Int) (hd : isOrthogonalUnit dc dr ∨ isDiagonalUnit dc dr) (k j : Nat)
    (hk : 1 ≤ k) (hkj : k < j) (hocc : ¬ board.isSpace (p.along dc dr k)) :
    p.along dc dr j ∉ slideTargets board white p ds := by
  intro hq
  rw [mem_slideTargets] at hq
  obtain ⟨e, he, i, h1, _, hqi, _, hpath, _⟩ := hq
  obtain ⟨h1', h2', h3'⟩ := along_inj p dc dr e.1 e.2 j i hd (hds e he) (by omega) h1 hqi
  subst h3'
  have := (hpath k hk hkj).2
  rw [← h1', ← h2'] at this
  exact hocc this

theorem mem_targets_moves (mk : Position → Move) (ts : List Position) (s : List Move)
    (m : Move) (hm : m ∈ insertAll s (ts.map mk)) (hs : m ∉ s) :
    ∃ q ∈ ts, m = mk q := by
  rcases mem_insertAll m _ _ hm with h | h
  · exact absurd h hs
  · simp only [List.mem_map] at h
    obtain ⟨q, hq, rfl⟩ := h
    exact ⟨q, hq, rfl⟩

/-- C3: with fuel for eight loop iterations per ray, `Rook::getMoves` and
`Queen::getMoves` return for every board, every piece state and every initial
move set, and every move they add starts at the piece's position and ends on a
square with both coordinates in [0,7] (`isValid`) that differs from the
piece's position. -/
theorem getMoves_adds_valid (self : Piece) (board : Board) (fuel : Nat)
    (possible : List Move) (hf : 8 ≤ fuel) :
    (∃ s, Rook.getMoves self fuel possible board = .ok s ∧
      ∀ m ∈ s, m ∉ possible →
        (0 ≤ m.dest.col ∧ m.dest.col ≤ 7 ∧ 0 ≤ m.dest.row ∧ m.dest.row ≤ 7) ∧
          m.dest.isValid = true ∧ m.source = self.position ∧ m.dest ≠ self.position) ∧
    (∃ s, Queen.getMoves self fuel possible board = .ok s ∧
      ∀ m ∈ s, m ∉ possible →
        (0 ≤ m.dest.col ∧ m.dest.col ≤ 7 ∧ 0 ≤ m.dest.row ∧ m.dest.row ≤ 7) ∧
          m.dest.isValid = true ∧ m.source = self.position ∧ m.dest ≠ self.position) := by
  constructor
  · refine ⟨_, rook_getMoves_eq self fuel possible board (Or.inl hf), ?_⟩
    intro m hm hnew
    obtain ⟨q, hq, rfl⟩ := mem_targets_moves _ _ _ m hm hnew
    obtain ⟨hv, hne, _⟩ := slideTargets_sound board _ _ q _
      (fun d hd => Or.inl ((mem_Rook_steps d).1 hd)) hq
    rw [rook_moveTo_dest, rook_moveTo_source]
    exact ⟨(Position.isValid_iff q).1 hv, hv, rfl, hne⟩
  · refine ⟨_, queen_getMoves_eq self fuel possible board (Or.inl hf), ?_⟩
    intro m hm hnew
    obtain ⟨q, hq, rfl⟩ := mem_targets_moves _ _ _ m hm hnew
    obtain ⟨hv, hne, _⟩ := slideTargets_sound board _ _ q _
      (fun d hd => (mem_Queen_steps d).1 hd) hq
    rw [queen_moveTo_dest, queen_moveTo_source]
    exact ⟨(Position.isValid_iff q).1 hv, hv, rfl, hne⟩

/-- C3, at the Rook scenario of the specification. -/
theorem getMoves_adds_valid_witness :
    8 ≤ 8 ∧
    (∃ s, Rook.getMoves rookA1 8 [] boardRookPawn = .ok s ∧
      ∀ m ∈ s, m ∉ ([] : List Move) →
        (0 ≤ m.dest.col ∧ m.dest.col ≤ 7 ∧ 0 ≤ m.dest.row ∧ m.dest.row ≤ 7) ∧
          m.dest.isValid = true ∧ m.source = rookA1.position ∧ m.dest ≠ rookA1.position) ∧
    (∃ s, Queen.getMoves rookA1 8 [] boardRookPawn = .ok s ∧
      ∀ m ∈ s, m ∉ ([] : List Move) →
        (0 ≤ m.dest.col ∧ m.dest.col ≤ 7 ∧ 0 ≤ m.dest.row ∧ m.dest.row ≤ 7) ∧
          m.dest.isValid = true ∧ m.source = rookA1.position ∧ m.dest ≠ rookA1.position) :=
  ⟨by decide, getMoves_adds_valid rookA1 boardRookPawn 8 [] (by decide)⟩

/-- C4: with fuel for eight loop iterations per ray, for every board and
piece state, the result of `Rook::getMoves` (and of `Queen::getMoves`) from
the empty set contains no move to a square at distance `j > k` along a
direction of the piece when the square at distance `k >= 1` along that
direction is not SPACE. -/
theorem getMoves_no_jump (self : Piece) (board : Board) (fuel : Nat) (hf : 8 ≤ fuel) :
    (∃ s, Rook.getMoves self fuel [] board = .ok s ∧
      ∀ dc dr : Int, isOrthogonalUnit dc dr → ∀ k j : Nat, 1 ≤ k → k < j →
        ¬ board.isSpace (self.position.along dc dr k) →
          self.position.along dc dr j ∉ destinations s) ∧
    (∃ s, Queen.getMoves self fuel [] board = .ok s ∧
      ∀ dc dr : Int, isOrthogonalUnit dc dr ∨ isDiagonalUnit dc dr →
        ∀ k j : Nat, 1 ≤ k → k < j →
          ¬ board.isSpace (self.position.along dc dr k) →
            self.position.along dc dr j ∉ destinations s) := by
  constructor
  · refine ⟨_, rook_getMoves_eq self fuel [] board (Or.inl hf), ?_⟩
    intro dc dr hd k j hk hkj hocc
    rw [mem_destinations_insertAll _ (rook_moveTo_dest self board)]
    exact slideTargets_no_jump board _ _ _
      (fun d hd => Or.inl ((mem_Rook_steps d).1 hd)) dc dr (Or.inl hd) k j hk hkj hocc
  · refine ⟨_, queen_getMoves_eq self fuel [] board (Or.inl hf), ?_⟩
    intro dc dr hd k j hk hkj hocc
    rw [mem_destinations_insertAll _ (queen_moveTo_dest self board)]
    exact slideTargets_no_jump board _ _ _
      (fun d hd => (mem_Queen_steps d).1 hd) dc dr hd k j hk hkj hocc

/-- C4, at the Queen scenario of the specification: the Queen on (4,4) with a
friendly piece on (4,6) reaches (4,5) and neither (4,6) nor (4,7). -/
theorem getMoves_no_jump_witness :
    8 ≤ 8 ∧
    ((∃ s, Rook.getMoves queenE5 8 [] boardQueenFriend = .ok s ∧
      ∀ dc dr : Int, isOrthogonalUnit dc dr → ∀ k j : Nat, 1 ≤ k → k < j →
        ¬ boardQueenFriend.isSpace (queenE5.position.along dc dr k) →
          queenE5.position.along dc dr j ∉ destinations s) ∧
    (∃ s, Queen.getMoves queenE5 8 [] boardQueenFriend = .ok s ∧
      ∀ dc dr : Int, isOrthogonalUnit dc dr ∨ isDiagonalUnit dc dr →
        ∀ k j : Nat, 1 ≤ k → k < j →
          ¬ boardQueenFriend.isSpace (queenE5.position.along dc dr k) →
            queenE5.position.along dc dr j ∉ destinations s)) ∧
    (∃ s, Queen.getMoves queenE5 8 [] boardQueenFriend = .ok s ∧
      Position.mk 4 5 ∈ destinations s ∧ Position.mk 4 6 ∉ destinations s ∧
        Position.mk 4 7 ∉ destinations s) :=
  ⟨by decide, getMoves_no_jump queenE5 boardQueenFriend 8 (by decide),
    ⟨_, rfl, by decide, by decide, by decide⟩⟩

/-- C5: with fuel for eight loop iterations per ray, for every board, piece
state and initial move set, no move that `Rook::getMoves` or
`Queen::getMoves` adds ends on a square held by a piece of the mover's own
colour, and when the first square of a ray holds such a piece no added move
ends anywhere on that ray. -/
theorem getMoves_never_friend (self : Piece) (board : Board) (fuel : Nat)
    (possible : List Move) (hf : 8 ≤ fuel) :
    (∃ s, Rook.getMoves self fuel possible board = .ok s ∧
      (∀ m ∈ s, m ∉ possible → ¬ board.isFriend self.fWhite m.dest) ∧
      ∀ dc dr : Int, isOrthogonalUnit dc dr →
        board.isFriend self.fWhite (self.position.along dc dr 1) →
          ∀ m ∈ s, m ∉ possible → ∀ j : Nat, 1 ≤ j → m.dest ≠ self.position.along dc dr j) ∧
    (∃ s, Queen.getMoves self fuel possible board = .ok s ∧
      (∀ m ∈ s, m ∉ possible → ¬ board.isFriend self.fWhite m.dest) ∧
      ∀ dc dr : Int, isOrthogonalUnit dc dr ∨ isDiagonalUnit dc dr →
        board.isFriend self.fWhite (self.position.along dc dr 1) →
          ∀ m ∈ s, m ∉ possible → ∀ j : Nat, 1 ≤ j → m.dest ≠ self.position.along dc dr j) := by
  constructor
  · have hu : ∀ d ∈ Rook.steps, isOrthogonalUnit d.1 d.2 ∨ isDiagonalUnit d.1 d.2 :=
      fun d hd => Or.inl ((mem_Rook_steps d).1 hd)
    refine ⟨_, rook_getMoves_eq self fuel possible board (Or.inl hf), ?_, ?_⟩
    · intro m hm hnew
      obtain ⟨q, hq, rfl⟩ := mem_targets_moves _ _ _ m hm hnew
      rw [rook_moveTo_dest]
      exact (slideTargets_sound board _ _ q _ hu hq).2.2
    · intro dc dr hd hfr m hm hnew j hj hdest
      obtain ⟨q, hq, rfl⟩ := mem_targets_moves _ _ _ m hm hnew
      rw [rook_moveTo_dest] at hdest
      subst hdest
      rcases Nat.eq_or_lt_of_le hj with h1 | h1
      · subst h1
        exact (slideTargets_sound board _ _ _ _ hu hq).2.2 hfr
      · exact slideTargets_no_jump board _ _ _ hu dc dr (Or.inl hd) 1 j (le_refl 1) h1
          hfr.1 hq
  · have hu : ∀ d ∈ Queen.steps, isOrthogonalUnit d.1 d.2 ∨ isDiagonalUnit d.1 d.2 :=
      fun d hd => (mem_Queen_steps d).1 hd
    refine ⟨_, queen_getMoves_eq self fuel possible board (Or.inl hf), ?_, ?_⟩
    · intro m hm hnew
      obtain ⟨q, hq, rfl⟩ := mem_targets_moves _ _ _ m hm hnew
      rw [queen_moveTo_dest]
      exact (slideTargets_sound board _ _ q _ hu hq).2.2
    · intro dc dr hd hfr m hm hnew j hj hdest
      obtain ⟨q, hq, rfl⟩ := mem_targets_moves _ _ _ m hm hnew
      rw [queen_moveTo_dest] at hdest
      subst hdest
      rcases Nat.eq_or_lt_of_le hj with h1 | h1
      · subst h1
        exact (slideTargets_sound board _ _ _ _ hu hq).2.2 hfr
      · exact slideTargets_no_jump board _ _ _ hu dc dr hd 1 j (le_refl 1) h1
          hfr.1 hq

/-- C5, at the Queen scenario of the specification, where the pawn on (4,6)
is friendly. -/
theorem getMoves_never_friend_witness :
    8 ≤ 8 ∧
    (∃ s, Rook.getMoves queenE5 8 [] boardQueenFriend = .ok s ∧
      (∀ m ∈ s, m ∉ ([] : List Move) → ¬ boardQueenFriend.isFriend queenE5.fWhite m.dest) ∧
      ∀ dc dr : Int, isOrthogonalUnit dc dr →
        boardQueenFriend.isFriend queenE5.fWhite (queenE5.position.along dc dr 1) →
          ∀ m ∈ s, m ∉ ([] : List Move) →
            ∀ j : Nat, 1 ≤ j → m.dest ≠ queenE5.position.along dc dr j) ∧
    (∃ s, Queen.getMoves queenE5 8 [] boardQueenFriend = .ok s ∧
      (∀ m ∈ s, m ∉ ([] : List Move) → ¬ boardQueenFriend.isFriend queenE5.fWhite m.dest) ∧
      ∀ dc dr : Int, isOrthogonalUnit dc dr ∨ isDiagonalUnit dc dr →
        boardQueenFriend.isFriend queenE5.fWhite (queenE5.position.along dc dr 1) →
          ∀ m ∈ s, m ∉ ([] : List Move) →
            ∀ j : Nat, 1 ≤ j → m.dest ≠ queenE5.position.along dc dr j) :=
  ⟨by decide, getMoves_never_friend queenE5 boardQueenFriend 8 [] (by decide)⟩

/-! ## Counting the moves -/

theorem setInsert_perm (m : Move) :
    ∀ s : List Move, m.key ∉ s.map Move.key → (setInsert m s).Perm (m :: s) := by
  intro s
  induction s with
  | nil => intro _; exact List.Perm.refl _
  | cons x xs ih =>
    intro h
    rw [setInsert]
    by_cases h1 : m.lt x = true
    · simp only [h1, if_true]; exact List.Perm.refl _
    · by_cases h2 : x.lt m = true
      · simp only [h1, h2, if_true, if_false]
        have hxs : m.key ∉ xs.map Move.key := fun hh => h (by simp [hh])
        exact ((ih hxs).cons x).trans (List.Perm.swap m x xs)
      · exfalso
        have hk := Move.same_key x m (by simpa using h2) (by simpa using h1)
        apply h
        simp only [List.map_cons, List.mem_cons]
        left
        simp only [Move.key, Prod.mk.injEq]
        exact ⟨hk.1.symm, hk.2.symm⟩

theorem insertAll_perm :
    ∀ (ms s : List Move), ((s ++ ms).map Move.key).Nodup → (insertAll s ms).Perm (s ++ ms) := by
  intro ms
  induction ms with
  | nil => intro s _; simp [insertAll_nil]
  | cons m ms ih =>
    intro s h
    rw [insertAll_cons]
    have hm : m.key ∉ s.map Move.key := by
      intro hh
      rw [List.map_append, List.map_cons] at h
      have := (List.nodup_append.1 h).2.2
      exact this hh (List.mem_cons_self _ _)
    have hp : (setInsert m s ++ ms).Perm (s ++ m :: ms) :=
      ((setInsert_perm m s hm).append_right ms).trans List.perm_middle.symm
    have hn : ((setInsert m s ++ ms).map Move.key).Nodup :=
      ((hp.map Move.key).nodup_iff).2 h
    exact (ih _ hn).trans hp

theorem rayTargets_open (board : Board) (white : Bool) (dc dr : Int) :
    ∀ (n : Nat) (c r : Int),
      (∀ i : Nat, i < n → ((Position.mk c r).along dc dr i).isValid = true →
        board.isSpace ((Position.mk c r).along dc dr i)) →
      rayTargets board white dc dr n c r = openRay dc dr n c r := by
  intro n
  induction n with
  | zero => intro c r _; rfl
  | succ n ih =>
    intro c r h
    rw [rayTargets, openRay]
    by_cases hv : (Position.mk c r).isValid = true
    · have h0 := h 0 (by omega)
      rw [Position.along_zero] at h0
      have hs : (board (Position.mk c r)).type = PieceType.SPACE := h0 hv
      simp only [hv, hs, if_true]
      rw [ih]
      intro i hi hvi
      rw [Position.along_shift] at hvi ⊢
      exact h (i + 1) (by omega) hvi
    · simp [hv]

theorem slideTargets_open (board : Board) (white : Bool) (p : Position)
    (hopen : ∀ q : Position, q.isValid = true → q ≠ p → board.isSpace q) :
    ∀ ds : List (Int × Int),
      (∀ d ∈ ds, isOrthogonalUnit d.1 d.2 ∨ isDiagonalUnit d.1 d.2) →
      slideTargets board white p ds = openTargets p ds := by
  intro ds
  induction ds with
  | nil => intro _; rfl
  | cons d ds ih =>
    intro hds
    have hd := hds d (List.mem_cons_self _ _)
    have hds' : ∀ e ∈ ds, isOrthogonalUnit e.1 e.2 ∨ isDiagonalUnit e.1 e.2 :=
      fun e he => hds e (List.mem_cons_of_mem _ he)
    have ht := ih hds'
    simp only [slideTargets, openTargets, List.flatMap_cons] at ht ⊢
    rw [ht, rayTargets_open]
    intro i _ hvi
    have e : (Position.mk (p.col + d.1) (p.row + d.2)).along d.1 d.2 i
        = p.along d.1 d.2 (i + 1) := Position.along_shift p.col p.row d.1 d.2 i
    rw [e] at hvi ⊢
    exact hopen _ hvi (along_ne_self p d.1 d.2 (i + 1) hd (by omega))

theorem openTargets_rook (p : Position) (hp : p.isValid = true) :
    (openTargets p Rook.steps).length = 14 ∧ (openTargets p Rook.steps).Nodup := by
  obtain ⟨c, r⟩ := p
  rw [Position.isValid_iff] at hp
  simp only at hp
  obtain ⟨h1, h2, h3, h4⟩ := hp
  interval_cases c <;> interval_cases r <;> decide

theorem targets_perm (mk : Position → Move) (p : Position)
    (hsrc : ∀ q, (mk q).source = p) (hdst : ∀ q, (mk q).dest = q)
    (ts : List Position) (hts : ts.Nodup) :
    (insertAll [] (ts.map mk)).Perm (ts.map mk) := by
  have hkey : (ts.map mk).map Move.key = ts.map (fun q => (p, q)) := by
    rw [List.map_map]
    apply List.map_congr_left
    intro q _
    simp [Move.key, hsrc, hdst]
  have hn : (([] ++ ts.map mk).map Move.key).Nodup := by
    rw [List.nil_append, hkey]
    exact hts.map (fun a b h => (Prod.mk.injEq _ _ _ _ ▸ h : p = p ∧ a = b).2)
  simpa using insertAll_perm (ts.map mk) [] hn

/-- C7: for a Rook on a valid square of a board whose other 63 squares are
all SPACE, with fuel for seven loop iterations per ray, `Rook::getMoves` from
the empty set returns a set of exactly 14 moves, pairwise distinct and with
pairwise distinct destinations. -/
theorem rook_getMoves_open_board (self : Piece) (board : Board) (fuel : Nat)
    (hp : self.position.isValid = true) (hf : 7 ≤ fuel)
    (hopen : ∀ q : Position, q.isValid = true → q ≠ self.position → board.isSpace q) :
    ∃ s, Rook.getMoves self fuel [] board = .ok s ∧
      s.length = 14 ∧ s.Nodup ∧ (destinations s).Nodup := by
  refine ⟨_, rook_getMoves_eq self fuel [] board (Or.inr ⟨hf, hp⟩), ?_⟩
  rw [slideTargets_open board _ _ hopen _ (fun d hd => Or.inl ((mem_Rook_steps d).1 hd))]
  obtain ⟨hlen, hnd⟩ := openTargets_rook self.position hp
  have hperm := targets_perm (Rook.moveTo self board) self.position
    (rook_moveTo_source self board) (rook_moveTo_dest self board) _ hnd
  have hdest : (destinations (insertAll []
      ((openTargets self.position Rook.steps).map (Rook.moveTo self board)))).Perm
      (openTargets self.position Rook.steps) := by
    have := hperm.map Move.dest
    rw [List.map_map] at this
    have e : (openTargets self.position Rook.steps).map (Move.dest ∘ Rook.moveTo self board)
        = openTargets self.position Rook.steps := by
      conv_rhs => rw [← List.map_id (openTargets self.position Rook.steps)]
      apply List.map_congr_left
      intro q _
      rfl
    rw [e] at this
    exact this
  refine ⟨?_, ?_, ?_⟩
  · rw [hperm.length_eq, List.length_map, hlen]
  · have : (destinations (insertAll []
        ((openTargets self.position Rook.steps).map (Rook.moveTo self board)))).Nodup :=
      (hdest.nodup_iff).2 hnd
    exact List.Nodup.of_map _ this
  · exact (hdest.nodup_iff).2 hnd

/-- C7, for the white Rook on (0,0) of a board where it stands alone. -/
theorem rook_getMoves_open_board_witness :
    rookA1.position.isValid = true ∧ 7 ≤ 7 ∧
      (∀ q : Position, q.isValid = true → q ≠ rookA1.position →
        (emptyBoard.place rookA1).isSpace q) ∧
      ∃ s, Rook.getMoves rookA1 7 [] (emptyBoard.place rookA1) = .ok s ∧
        s.length = 14 ∧ s.Nodup ∧ (destinations s).Nodup :=
  ⟨by decide, by decide,
    fun q _ hq => by simp [Board.place, Board.isSpace, hq, emptyBoard, Piece.ofPosition],
    rook_getMoves_open_board rookA1 (emptyBoard.place rookA1) 7 (by decide) (by decide)
      (fun q _ hq => by simp [Board.place, Board.isSpace, hq, emptyBoard, Piece.ofPosition])⟩

/-! ## Captures of the Rook -/

theorem mem_insertAll_targets (mk : Position → Move) (hdst : ∀ q, (mk q).dest = q)
    (ts : List Position) (m : Move) :
    m ∈ insertAll [] (ts.map mk) ↔ ∃ q ∈ ts, m = mk q := by
  constructor
  · intro hm
    exact mem_targets_moves mk ts [] m hm (by simp)
  · rintro ⟨q, hq, rfl⟩
    obtain ⟨y, hy, _, hd⟩ := key_insertAll (mk q) (ts.map mk) [] (List.mem_map_of_mem mk hq)
    obtain ⟨t, _, rfl⟩ := mem_targets_moves mk ts [] y hy (by simp)
    rw [hdst, hdst] at hd
    rw [← hd]
    exact hy

/-- C6, the claim refuted: in the Rook scenario the ray towards (0,5) is
blocked by an enemy pawn, and the one move onto (0,5) carries the kind `MOVE`,
the kind of the move onto the empty square (0,4), not a capture kind. -/
theorem rook_capture_kind_counterexample :
    ∃ s, Rook.getMoves rookA1 7 [] boardRookPawn = .ok s ∧
      boardRookPawn.isEnemy rookA1.fWhite (Position.mk 0 5) ∧
      boardRookPawn.isSpace (Position.mk 0 4) ∧
      (∃ m ∈ s, m.dest = Position.mk 0 5) ∧
      (∀ m ∈ s, m.dest = Position.mk 0 5 →
        m.moveType = MoveType.MOVE ∧ m.moveType ≠ MoveType.CAPTURE) ∧
      (∀ m ∈ s, m.dest = Position.mk 0 4 → m.moveType = MoveType.MOVE) :=
  ⟨_, rfl, by decide, by decide, by decide, by decide, by decide⟩

/-- C6 as amended: for a Rook on a valid square, with fuel for seven loop
iterations per ray, when the ray along an orthogonal unit vector is blocked at
distance `k` by an opposite-colour piece, the result from the empty set holds
the move onto the blocking square whose captured type is the occupant's type
and whose kind is `MOVE`, and that is the only move of the result that ends
on a non-SPACE square of this ray. -/
theorem rook_getMoves_capture (self : Piece) (board : Board) (fuel : Nat) (dc dr : Int)
    (k : Nat) (hp : self.position.isValid = true) (hf : 7 ≤ fuel)
    (hd : isOrthogonalUnit dc dr)
    (hr : Reaches board self.fWhite self.position dc dr k)
    (he : board.isEnemy self.fWhite (self.position.along dc dr k)) :
    ∃ s, Rook.getMoves self fuel [] board = .ok s ∧
      Move.mk self.position (self.position.along dc dr k) PieceType.INVALID
        (board (self.position.along dc dr k)).getType MoveType.MOVE self.fWhite ∈ s ∧
      ∀ m ∈ s, (∃ j : Nat, 1 ≤ j ∧ m.dest = self.position.along dc dr j) →
        ¬ board.isSpace m.dest →
        m = Move.mk self.position (self.position.along dc dr k) PieceType.INVALID
          (board (self.position.along dc dr k)).getType MoveType.MOVE self.fWhite := by
  have hu : ∀ d ∈ Rook.steps, isOrthogonalUnit d.1 d.2 ∨ isDiagonalUnit d.1 d.2 :=
    fun d hd => Or.inl ((mem_Rook_steps d).1 hd)
  refine ⟨_, rook_getMoves_eq self fuel [] board (Or.inr ⟨hf, hp⟩), ?_, ?_⟩
  · rw [mem_insertAll_targets _ (rook_moveTo_dest self board)]
    refine ⟨self.position.along dc dr k, ?_, rfl⟩
    rw [mem_slideTargets_valid board _ _ _ _ hp hu]
    exact ⟨(dc, dr), (mem_Rook_steps (dc, dr)).2 hd, k, hr, rfl⟩
  · intro m hm hray hocc
    rw [mem_insertAll_targets _ (rook_moveTo_dest self board)] at hm
    obtain ⟨q, hq, rfl⟩ := hm
    rw [rook_moveTo_dest] at hray hocc
    obtain ⟨j, hj, hqj⟩ := hray
    rw [mem_slideTargets_valid board _ _ _ _ hp hu] at hq
    obtain ⟨e, hmem, i, hri, hqi⟩ := hq
    obtain ⟨e1, e2, e3⟩ := along_inj self.position dc dr e.1 e.2 j i (Or.inl hd)
      (hu e hmem) hj hri.1 (hqj.symm.trans hqi)
    subst e3
    rw [← e1, ← e2] at hri
    have hjk : j = k := by
      rcases Nat.lt_trichotomy j k with h | h | h
      · exact absurd (hqj ▸ hr.2.2.1 j hj h) hocc
      · exact h
      · exact absurd (hri.2.2.1 k hr.1 h) he.1
    subst hjk
    rw [hqj]
    rfl

/-- C6 as amended, at the Rook scenario of the specification: the blocked ray
is the one along (0,1), the blocker the pawn at distance 5. -/
theorem rook_getMoves_capture_witness :
    rookA1.position.isValid = true ∧ 7 ≤ 7 ∧ isOrthogonalUnit 0 1 ∧
      Reaches boardRookPawn rookA1.fWhite rookA1.position 0 1 5 ∧
      boardRookPawn.isEnemy rookA1.fWhite (rookA1.position.along 0 1 5) ∧
      ∃ s, Rook.getMoves rookA1 7 [] boardRookPawn = .ok s ∧
        Move.mk rookA1.position (rookA1.position.along 0 1 5) PieceType.INVALID
          (boardRookPawn (rookA1.position.along 0 1 5)).getType MoveType.MOVE
          rookA1.fWhite ∈ s ∧
        ∀ m ∈ s, (∃ j : Nat, 1 ≤ j ∧ m.dest = rookA1.position.along 0 1 j) →
          ¬ boardRookPawn.isSpace m.dest →
          m = Move.mk rookA1.position (rookA1.position.along 0 1 5) PieceType.INVALID
            (boardRookPawn (rookA1.position.along 0 1 5)).getType MoveType.MOVE
            rookA1.fWhite :=
  have hreach : Reaches boardRookPawn rookA1.fWhite rookA1.position 0 1 5 :=
    ⟨by decide, by decide,
      fun j h1 h5 => by
        have hj : j = 1 ∨ j = 2 ∨ j = 3 ∨ j = 4 := by omega
        rcases hj with rfl | rfl | rfl | rfl <;> decide,
      Or.inr (by decide)⟩
  ⟨by decide, by decide, by decide, hreach, by decide,
    rook_getMoves_capture rookA1 boardRookPawn 7 0 1 5 (by decide) (by decide) (by decide)
      hreach (by decide)⟩

/-! ## The state of a Piece -/

/-- C8: `Piece::justMoved(currentMove)` returns true iff `lastMove` equals
`currentMove - 1`, for every piece state and every `currentMove`. -/
theorem Piece.justMoved_iff (pc : Piece) (currentMove : Int) :
    pc.justMoved currentMove = true ↔ pc.lastMove = currentMove - 1 := by
  simp [Piece.justMoved]

/-- C9, the claim refuted: a piece fresh from either constructor, which stores
`lastMove = 0`, answers true to `justMoved(1)`. -/
theorem Piece.justMoved_fresh_counterexample :
    (Piece.ofPosition PieceType.PAWN (Position.mk 0 1) true).justMoved 1 = true ∧
      (Piece.ofColRow PieceType.PAWN 0 1 true).justMoved 1 = true :=
  ⟨by decide, by decide⟩

/-- C9 as amended: for a piece fresh from either constructor, `justMoved`
returns false for every `currentMove` other than 1 and true at 1. -/
theorem Piece.justMoved_fresh (t : PieceType) (pos : Position) (c r : Int) (isWhite : Bool)
    (currentMove : Int) :
    ((Piece.ofPosition t pos isWhite).justMoved currentMove = false ↔ currentMove ≠ 1) ∧
      ((Piece.ofColRow t c r isWhite).justMoved currentMove = false ↔ currentMove ≠ 1) := by
  simp only [Piece.justMoved, Piece.ofPosition, Piece.ofColRow, decide_eq_false_iff_not]
  omega

/-- C10, the claim refuted: a fresh piece satisfies the invariant, and after
`incrementNMoves` it has `nMoves = 1` with `lastMove` still 0, after
`decrementNMoves` it has `nMoves = -1`; both break the invariant and the
second a negative move count. -/
theorem Piece.invariant_counterexample :
    (Piece.ofColRow PieceType.ROOK 0 0 true).invariant ∧
      ¬ (Piece.ofColRow PieceType.ROOK 0 0 true).incrementNMoves.invariant ∧
      ¬ (Piece.ofColRow PieceType.ROOK 0 0 true).decrementNMoves.invariant ∧
      (Piece.ofColRow PieceType.ROOK 0 0 true).decrementNMoves.nMoves < 0 :=
  ⟨by decide, by decide, by decide, by decide⟩

/-- C10 as amended: a piece fresh from either constructor satisfies the
invariant with `nMoves = 0`; `setPosition` preserves the invariant and leaves
`nMoves` and `lastMove` as they are; `incrementNMoves` and `decrementNMoves`
change `nMoves` by one and leave `lastMove` as it is, so the first keeps
`nMoves >= 0` and preserves the invariant from a state with `nMoves >= 1`, the
second keeps `nMoves >= 0` from `nMoves >= 1` and preserves the invariant from
`nMoves >= 2`. -/
theorem Piece.invariant_steps (pc : Piece) (newPos : Position) (t : PieceType)
    (pos : Position) (c r : Int) (isWhite : Bool)
    (hinv : pc.invariant) (hn : 0 ≤ pc.nMoves) :
    ((Piece.ofPosition t pos isWhite).invariant ∧ (Piece.ofPosition t pos isWhite).nMoves = 0) ∧
    ((Piece.ofColRow t c r isWhite).invariant ∧ (Piece.ofColRow t c r isWhite).nMoves = 0) ∧
    ((pc.setPosition newPos).invariant ∧ (pc.setPosition newPos).nMoves = pc.nMoves ∧
      (pc.setPosition newPos).lastMove = pc.lastMove) ∧
    (pc.incrementNMoves.nMoves = pc.nMoves + 1 ∧ pc.incrementNMoves.lastMove = pc.lastMove ∧
      0 ≤ pc.incrementNMoves.nMoves ∧ (1 ≤ pc.nMoves → pc.incrementNMoves.invariant)) ∧
    (pc.decrementNMoves.nMoves = pc.nMoves - 1 ∧ pc.decrementNMoves.lastMove = pc.lastMove ∧
      (1 ≤ pc.nMoves → 0 ≤ pc.decrementNMoves.nMoves) ∧
      (2 ≤ pc.nMoves → pc.decrementNMoves.invariant)) := by
  have h1 : pc.nMoves = 0 ↔ pc.lastMove = 0 := hinv
  refine ⟨⟨?_, rfl⟩, ⟨?_, rfl⟩, ⟨hinv, rfl, rfl⟩, ⟨rfl, rfl, ?_, ?_⟩, ⟨rfl, rfl, ?_, ?_⟩⟩
  · simp [Piece.invariant, Piece.ofPosition]
  · simp [Piece.invariant, Piece.ofColRow]
  · show 0 ≤ pc.nMoves + 1
    omega
  · intro h
    show pc.nMoves + 1 = 0 ↔ pc.lastMove = 0
    constructor
    · intro h0; omega
    · intro h0; have := h1.2 h0; omega
  · intro h
    show 0 ≤ pc.nMoves - 1
    omega
  · intro h
    show pc.nMoves - 1 = 0 ↔ pc.lastMove = 0
    constructor
    · intro h0; omega
    · intro h0; have := h1.2 h0; omega

/-- C10 as amended, for a piece that has moved twice, last at move 5. -/
theorem Piece.invariant_steps_witness :
    (Piece.mk PieceType.ROOK 2 true (Position.mk 3 3) 5).invariant ∧
    0 ≤ (Piece.mk PieceType.ROOK 2 true (Position.mk 3 3) 5).nMoves ∧
    (((Piece.ofPosition PieceType.ROOK (Position.mk 0 0) true).invariant ∧
      (Piece.ofPosition PieceType.ROOK (Position.mk 0 0) true).nMoves = 0) ∧
    ((Piece.ofColRow PieceType.ROOK 0 0 true).invariant ∧
      (Piece.ofColRow PieceType.ROOK 0 0 true).nMoves = 0) ∧
    (((Piece.mk PieceType.ROOK 2 true (Position.mk 3 3) 5).setPosition
        (Position.mk 3 6)).invariant ∧
      ((Piece.mk PieceType.ROOK 2 true (Position.mk 3 3) 5).setPosition
        (Position.mk 3 6)).nMoves = (Piece.mk PieceType.ROOK 2 true (Position.mk 3 3) 5).nMoves ∧
      ((Piece.mk PieceType.ROOK 2 true (Position.mk 3 3) 5).setPosition
        (Position.mk 3 6)).lastMove
        = (Piece.mk PieceType.ROOK 2 true (Position.mk 3 3) 5).lastMove) ∧
    ((Piece.mk PieceType.ROOK 2 true (Position.mk 3 3) 5).incrementNMoves.nMoves
        = (Piece.mk PieceType.ROOK 2 true (Position.mk 3 3) 5).nMoves + 1 ∧
      (Piece.mk PieceType.ROOK 2 true (Position.mk 3 3) 5).incrementNMoves.lastMove
        = (Piece.mk PieceType.ROOK 2 true (Position.mk 3 3) 5).lastMove ∧
      0 ≤ (Piece.mk PieceType.ROOK 2 true (Position.mk 3 3) 5).incrementNMoves.nMoves ∧
      (1 ≤ (Piece.mk PieceType.ROOK 2 true (Position.mk 3 3) 5).nMoves →
        (Piece.mk PieceType.ROOK 2 true (Position.mk 3 3) 5).incrementNMoves.invariant)) ∧
    ((Piece.mk PieceType.ROOK 2 true (Position.mk 3 3) 5).decrementNMoves.nMoves
        = (Piece.mk PieceType.ROOK 2 true (Position.mk 3 3) 5).nMoves - 1 ∧
      (Piece.mk PieceType.ROOK 2 true (Position.mk 3 3) 5).decrementNMoves.lastMove
        = (Piece.mk PieceType.ROOK 2 true (Position.mk 3 3) 5).lastMove ∧
      (1 ≤ (Piece.mk PieceType.ROOK 2 true (Position.mk 3 3) 5).nMoves →
        0 ≤ (Piece.mk PieceType.ROOK 2 true (Position.mk 3 3) 5).decrementNMoves.nMoves) ∧
      (2 ≤ (Piece.mk PieceType.ROOK 2 true (Position.mk 3 3) 5).nMoves →
        (Piece.mk PieceType.ROOK 2 true (Position.mk 3 3) 5).decrementNMoves.invariant))) :=
  ⟨by decide, by decide,
    Piece.invariant_steps (Piece.mk PieceType.ROOK 2 true (Position.mk 3 3) 5)
      (Position.mk 3 6) PieceType.ROOK (Position.mk 0 0) 0 0 true (by decide) (by decide)⟩

/-! ## Invariants of the ray loop -/

theorem whileLoop_inv {σ : Type} (cond : σ → Except Fault Bool) (body : σ → Except Fault σ)
    (Inv : σ → Prop)
    (hbody : ∀ s t, Inv s → cond s = .ok true → body s = .ok t → Inv t) :
    ∀ (fuel : Nat) (s t : σ), Inv s → whileLoop cond body fuel s = .ok t →
      Inv t ∧ cond t = .ok false := by
  intro fuel
  induction fuel with
  | zero =>
    intro s t hs h
    rw [whileLoop] at h
    rcases hc : cond s with e | b
    · simp [hc] at h
    · cases b
      · simp only [hc, Except.ok.injEq] at h
        subst h
        exact ⟨hs, hc⟩
      · simp [hc] at h
  | succ n ih =>
    intro s t hs h
    rw [whileLoop] at h
    rcases hc : cond s with e | b
    · simp [hc] at h
    · cases b
      · simp only [hc, Except.ok.injEq] at h
        subst h
        exact ⟨hs, hc⟩
      · rcases hb : body s with e | u
        · simp [hc, hb] at h
        · simp only [hc, hb] at h
          exact ih u t (hbody s u hs hc hb) h

theorem whileLoop_in_bounds {σ : Type} (cond : σ → Except Fault Bool)
    (body : σ → Except Fault σ) (Inv : σ → Prop)
    (hbody : ∀ s t, Inv s → cond s = .ok true → body s = .ok t → Inv t)
    (hc : ∀ s, Inv s → cond s ≠ .error Fault.outOfBounds)
    (hb : ∀ s, Inv s → cond s = .ok true → body s ≠ .error Fault.outOfBounds) :
    ∀ (fuel : Nat) (s : σ), Inv s →
      whileLoop cond body fuel s ≠ .error Fault.outOfBounds := by
  intro fuel
  induction fuel with
  | zero =>
    intro s hs h
    rw [whileLoop] at h
    rcases hcs : cond s with e | b
    · simp only [hcs, Except.error.injEq] at h
      subst h
      exact hc s hs hcs
    · cases b <;> simp [hcs] at h
  | succ n ih =>
    intro s hs h
    rw [whileLoop] at h
    rcases hcs : cond s with e | b
    · simp only [hcs, Except.error.injEq] at h
      subst h
      exact hc s hs hcs
    · cases b
      · simp [hcs] at h
      · rcases hbs : body s with e | u
        · simp only [hcs, hbs, Except.error.injEq] at h
          subst h
          exact hb s hs hcs hbs
        · simp only [hcs, hbs] at h
          exact ih u (hbody s u hs hcs hbs) h

theorem rook_loopCond_eq (board : Board) (w : Walk) (h : w.newPos = Position.mk w.c w.r) :
    Rook.loopCond board w
      = .ok (w.newPos.isValid && decide (board.isSpace w.newPos)) := by
  obtain ⟨r, c, np, ms⟩ := w
  simp only at h
  subst h
  by_cases hv : (Position.mk c r).isValid = true
  · rw [rook_loopCond_valid board r c ms hv]
    simp [hv, Board.isSpace]
  · have hv' : (Position.mk c r).isValid = false := by simpa using hv
    rw [rook_loopCond_invalid board r c ms hv']
    simp [hv']

theorem queen_loopCond_eq (board : Board) (w : Walk) (h : w.newPos = Position.mk w.c w.r) :
    Queen.loopCond board w
      = .ok (w.newPos.isValid && decide (board.isSpace w.newPos)) := by
  obtain ⟨r, c, np, ms⟩ := w
  simp only at h
  subst h
  by_cases hv : (Position.mk c r).isValid = true
  · rw [queen_loopCond_valid board r c ms hv]
    simp [hv, Board.isSpace]
  · have hv' : (Position.mk c r).isValid = false := by simpa using hv
    rw [queen_loopCond_invalid board r c ms hv']
    simp [hv']

theorem rook_loopBody_eq (self : Piece) (board : Board) (d : Relative) (w : Walk)
    (hv : w.newPos.isValid = true) :
    Rook.loopBody self board d w
      = .ok ⟨w.r + d.row, w.c + d.col, Position.mk (w.c + d.col) (w.r + d.row),
          setInsert (Rook.moveTo self board w.newPos) w.moves⟩ := by
  simp [Rook.loopBody, rook_emit_valid self board _ w.moves hv]

theorem queen_loopBody_eq (self : Piece) (board : Board) (d : RelativePos) (w : Walk)
    (hv : w.newPos.isValid = true) :
    Queen.loopBody self board d w
      = .ok ⟨w.r + d.row, w.c + d.col, Position.mk (w.c + d.col) (w.r + d.row),
          setInsert (Queen.moveTo self board w.newPos) w.moves⟩ := by
  simp [Queen.loopBody, queen_emit_valid self board _ w.moves hv]

theorem rook_body_inv (self : Piece) (board : Board) (d : Relative) (possible : List Move)
    (s t : Walk) (hs : Walk.inv board possible s)
    (hc : Rook.loopCond board s = .ok true) (hb : Rook.loopBody self board d s = .ok t) :
    Walk.inv board possible t := by
  rw [rook_loopCond_eq board s hs.1] at hc
  simp only [Except.ok.injEq, Bool.and_eq_true, decide_eq_true_eq] at hc
  rw [rook_loopBody_eq self board d s hc.1] at hb
  simp only [Except.ok.injEq] at hb
  subst hb
  refine ⟨rfl, ?_⟩
  intro m hm
  rcases mem_setInsert _ m _ hm with h | h
  · right; rw [h, rook_moveTo_dest]; exact hc.2
  · exact hs.2 m h

theorem queen_body_inv (self : Piece) (board : Board) (d : RelativePos)
    (possible : List Move) (s t : Walk) (hs : Walk.inv board possible s)
    (hc : Queen.loopCond board s = .ok true) (hb : Queen.loopBody self board d s = .ok t) :
    Walk.inv board possible t := by
  rw [queen_loopCond_eq board s hs.1] at hc
  simp only [Except.ok.injEq, Bool.and_eq_true, decide_eq_true_eq] at hc
  rw [queen_loopBody_eq self board d s hc.1] at hb
  simp only [Except.ok.injEq] at hb
  subst hb
  refine ⟨rfl, ?_⟩
  intro m hm
  rcases mem_setInsert _ m _ hm with h | h
  · right; rw [h, queen_moveTo_dest]; exact hc.2
  · exact hs.2 m h

theorem rook_finalEmit_in_bounds (self : Piece) (board : Board) (w : Walk) :
    Rook.finalEmit self board w ≠ .error Fault.outOfBounds := by
  unfold Rook.finalEmit
  by_cases hv : w.newPos.isValid = true
  · simp only [hv, if_true, Board.get_valid board _ hv, rook_emit_valid self board _ _ hv]
    split
    · simp
    · split <;> simp
  · simp [hv]

theorem queen_finalEmit_in_bounds (self : Piece) (board : Board) (w : Walk) :
    Queen.finalEmit self board w ≠ .error Fault.outOfBounds := by
  unfold Queen.finalEmit
  by_cases hv : w.newPos.isValid = true
  · simp only [hv, if_true, Board.get_valid board _ hv, queen_emit_valid self board _ _ hv]
    split
    · simp
    · split <;> simp
  · simp [hv]

theorem rook_ray_in_bounds (self : Piece) (fuel : Nat) (board : Board) (d : Relative)
    (possible : List Move) : Rook.ray self fuel board d possible ≠ .error Fault.outOfBounds := by
  unfold Rook.ray
  simp only
  have hloop := whileLoop_in_bounds (Rook.loopCond board) (Rook.loopBody self board d)
    (Walk.inv board possible)
    (fun s t hs hc hb => rook_body_inv self board d possible s t hs hc hb)
    (fun s hs h => by rw [rook_loopCond_eq board s hs.1] at h; simp at h)
    (fun s hs hc h => by
      rw [rook_loopCond_eq board s hs.1] at hc
      simp only [Except.ok.injEq, Bool.and_eq_true, decide_eq_true_eq] at hc
      rw [rook_loopBody_eq self board d s hc.1] at h
      simp at h)
    fuel ⟨self.position.getRow + d.row, self.position.getCol + d.col,
      Position.mk (self.position.getCol + d.col) (self.position.getRow + d.row), possible⟩
    ⟨rfl, fun m hm => Or.inl hm⟩
  split
  · next e he =>
    intro h
    simp only [Except.error.injEq] at h
    subst h
    exact hloop he
  · exact rook_finalEmit_in_bounds self board _

theorem queen_ray_in_bounds (self : Piece) (fuel : Nat) (board : Board) (d : RelativePos)
    (possible : List Move) :
    Queen.ray self fuel board d possible ≠ .error Fault.outOfBounds := by
  unfold Queen.ray
  simp only
  have hloop := whileLoop_in_bounds (Queen.loopCond board) (Queen.loopBody self board d)
    (Walk.inv board possible)
    (fun s t hs hc hb => queen_body_inv self board d possible s t hs hc hb)
    (fun s hs h => by rw [queen_loopCond_eq board s hs.1] at h; simp at h)
    (fun s hs hc h => by
      rw [queen_loopCond_eq board s hs.1] at hc
      simp only [Except.ok.injEq, Bool.and_eq_true, decide_eq_true_eq] at hc
      rw [queen_loopBody_eq self board d s hc.1] at h
      simp at h)
    fuel ⟨self.position.getRow + d.row, self.position.getCol + d.col,
      Position.mk (self.position.getCol + d.col) (self.position.getRow + d.row), possible⟩
    ⟨rfl, fun m hm => Or.inl hm⟩
  split
  · next e he =>
    intro h
    simp only [Except.error.injEq] at h
    subst h
    exact hloop he
  · exact queen_finalEmit_in_bounds self board _

theorem rook_forLoop_in_bounds (self : Piece) (fuel : Nat) (board : Board) :
    ∀ (ds : List Relative) (possible : List Move),
      Rook.forLoop self fuel board ds possible ≠ .error Fault.outOfBounds := by
  intro ds
  induction ds with
  | nil => intro possible; simp [Rook.forLoop]
  | cons d ds ih =>
    intro possible
    rw [Rook.forLoop]
    split
    · next e he =>
      intro h
      simp only [Except.error.injEq] at h
      subst h
      exact rook_ray_in_bounds self fuel board d possible he
    · exact ih _

theorem queen_forLoop_in_bounds (self : Piece) (fuel : Nat) (board : Board) :
    ∀ (ds : List RelativePos) (possible : List Move),
      Queen.forLoop self fuel board ds possible ≠ .error Fault.outOfBounds := by
  intro ds
  induction ds with
  | nil => intro possible; simp [Queen.forLoop]
  | cons d ds ih =>
    intro possible
    rw [Queen.forLoop]
    split
    · next e he =>
      intro h
      simp only [Except.error.injEq] at h
      subst h
      exact queen_ray_in_bounds self fuel board d possible he
    · exact ih _

/-- C11: for every piece state, board, initial move set and fuel budget,
neither `Rook::getMoves` nor `Queen::getMoves` ends in the out-of-bounds
fault, the outcome of a `board[newPos]` read at a position outside the 8x8
grid: every read in the loop condition, in the loop body and after the loop
is reached only after its bounds test has succeeded. -/
theorem getMoves_in_bounds (self : Piece) (board : Board) (fuel : Nat)
    (possible : List Move) :
    Rook.getMoves self fuel possible board ≠ .error Fault.outOfBounds ∧
      Queen.getMoves self fuel possible board ≠ .error Fault.outOfBounds :=
  ⟨rook_forLoop_in_bounds self fuel board _ _, queen_forLoop_in_bounds self fuel board _ _⟩

theorem rook_loop_exit (self : Piece) (board : Board) (d : Relative) (fuel : Nat)
    (possible : List Move) (hd : d.col ≠ 0 ∨ d.row ≠ 0) (hf : 8 ≤ fuel) :
    ∃ w, whileLoop (Rook.loopCond board) (Rook.loopBody self board d) fuel
        ⟨self.position.getRow + d.row, self.position.getCol + d.col,
          Position.mk (self.position.getCol + d.col) (self.position.getRow + d.row),
          possible⟩ = .ok w ∧
      (w.newPos.isValid = true →
        ¬ board.isSpace w.newPos ∧ ∀ m ∈ w.moves, m ∉ possible → m.dest ≠ w.newPos) := by
  have hrun := rook_walk_eq self board d 8 fuel (self.position.getCol + d.col)
    (self.position.getRow + d.row) possible hf (span_eight _ _ _ _ hd)
  rcases hw : whileLoop (Rook.loopCond board) (Rook.loopBody self board d) fuel
      ⟨self.position.getRow + d.row, self.position.getCol + d.col,
        Position.mk (self.position.getCol + d.col) (self.position.getRow + d.row),
        possible⟩ with e | w
  · rw [hw] at hrun
    simp at hrun
  · refine ⟨w, rfl, ?_⟩
    obtain ⟨hinv, hc⟩ := whileLoop_inv (Rook.loopCond board) (Rook.loopBody self board d)
      (Walk.inv board possible)
      (fun s t hs hc hb => rook_body_inv self board d possible s t hs hc hb)
      fuel _ w ⟨rfl, fun m hm => Or.inl hm⟩ hw
    rw [rook_loopCond_eq board w hinv.1] at hc
    simp only [Except.ok.injEq, Bool.and_eq_false_iff, decide_eq_false_iff_not] at hc
    intro hv
    have hns : ¬ board.isSpace w.newPos := by
      rcases hc with h | h
      · simp [hv] at h
      · exact h
    refine ⟨hns, ?_⟩
    intro m hm hnew hdest
    rcases hinv.2 m hm with h | h
    · exact hnew h
    · exact hns (hdest ▸ h)

theorem queen_loop_exit (self : Piece) (board : Board) (d : RelativePos) (fuel : Nat)
    (possible : List Move) (hd : d.col ≠ 0 ∨ d.row ≠ 0) (hf : 8 ≤ fuel) :
    ∃ w, whileLoop (Queen.loopCond board) (Queen.loopBody self board d) fuel
        ⟨self.position.getRow + d.row, self.position.getCol + d.col,
          Position.mk (self.position.getCol + d.col) (self.position.getRow + d.row),
          possible⟩ = .ok w ∧
      (w.newPos.isValid = true →
        ¬ board.isSpace w.newPos ∧ ∀ m ∈ w.moves, m ∉ possible → m.dest ≠ w.newPos) := by
  have hrun := queen_walk_eq self board d 8 fuel (self.position.getCol + d.col)
    (self.position.getRow + d.row) possible hf (span_eight _ _ _ _ hd)
  rcases hw : whileLoop (Queen.loopCond board) (Queen.loopBody self board d) fuel
      ⟨self.position.getRow + d.row, self.position.getCol + d.col,
        Position.mk (self.position.getCol + d.col) (self.position.getRow + d.row),
        possible⟩ with e | w
  · rw [hw] at hrun
    simp at hrun
  · refine ⟨w, rfl, ?_⟩
    obtain ⟨hinv, hc⟩ := whileLoop_inv (Queen.loopCond board) (Queen.loopBody self board d)
      (Walk.inv board possible)
      (fun s t hs hc hb => queen_body_inv self board d possible s t hs hc hb)
      fuel _ w ⟨rfl, fun m hm => Or.inl hm⟩ hw
    rw [queen_loopCond_eq board w hinv.1] at hc
    simp only [Except.ok.injEq, Bool.and_eq_false_iff, decide_eq_false_iff_not] at hc
    intro hv
    have hns : ¬ board.isSpace w.newPos := by
      rcases hc with h | h
      · simp [hv] at h
      · exact h
    refine ⟨hns, ?_⟩
    intro m hm hnew hdest
    rcases hinv.2 m hm with h | h
    · exact hnew h
    · exact hns (hdest ▸ h)

theorem rook_moves_ne_zero (d : Relative) (h : d ∈ Rook.moves) : d.col ≠ 0 ∨ d.row ≠ 0 := by
  simp [Rook.moves] at h
  rcases h with rfl | rfl | rfl | rfl <;> simp

theorem queen_possible_ne_zero (d : RelativePos) (h : d ∈ Queen.possible) :
    d.col ≠ 0 ∨ d.row ≠ 0 := by
  simp [Queen.possible] at h
  rcases h with rfl | rfl | rfl | rfl | rfl | rfl | rfl | rfl <;> simp

/-- C13: with fuel for eight loop iterations, for every board, piece state,
initial move set and direction of the table, the ray loop of `Rook::getMoves`
(and of `Queen::getMoves`) exits, and when the position it exits on is in
bounds that square is not SPACE and is not the destination of any move the
loop added; so the `getType() == SPACE` disjunct of the test after the loop
is false whenever it is evaluated. -/
theorem final_emit_not_space (self : Piece) (board : Board) (fuel : Nat)
    (possible : List Move) (hf : 8 ≤ fuel) :
    (∀ d ∈ Rook.moves,
      ∃ w, whileLoop (Rook.loopCond board) (Rook.loopBody self board d) fuel
          ⟨self.position.getRow + d.row, self.position.getCol + d.col,
            Position.mk (self.position.getCol + d.col) (self.position.getRow + d.row),
            possible⟩ = .ok w ∧
        (w.newPos.isValid = true →
          ¬ board.isSpace w.newPos ∧ ∀ m ∈ w.moves, m ∉ possible → m.dest ≠ w.newPos)) ∧
    (∀ d ∈ Queen.possible,
      ∃ w, whileLoop (Queen.loopCond board) (Queen.loopBody self board d) fuel
          ⟨self.position.getRow + d.row, self.position.getCol + d.col,
            Position.mk (self.position.getCol + d.col) (self.position.getRow + d.row),
            possible⟩ = .ok w ∧
        (w.newPos.isValid = true →
          ¬ board.isSpace w.newPos ∧ ∀ m ∈ w.moves, m ∉ possible → m.dest ≠ w.newPos)) :=
  ⟨fun d hd => rook_loop_exit self board d fuel possible (rook_moves_ne_zero d hd) hf,
    fun d hd => queen_loop_exit self board d fuel possible (queen_possible_ne_zero d hd) hf⟩

/-- C13, at the Rook scenario of the specification. -/
theorem final_emit_not_space_witness :
    8 ≤ 8 ∧
    (∀ d ∈ Rook.moves,
      ∃ w, whileLoop (Rook.loopCond boardRookPawn) (Rook.loopBody rookA1 boardRookPawn d) 8
          ⟨rookA1.position.getRow + d.row, rookA1.position.getCol + d.col,
            Position.mk (rookA1.position.getCol + d.col) (rookA1.position.getRow + d.row),
            []⟩ = .ok w ∧
        (w.newPos.isValid = true →
          ¬ boardRookPawn.isSpace w.newPos ∧
            ∀ m ∈ w.moves, m ∉ ([] : List Move) → m.dest ≠ w.newPos)) ∧
    (∀ d ∈ Queen.possible,
      ∃ w, whileLoop (Queen.loopCond boardRookPawn) (Queen.loopBody rookA1 boardRookPawn d) 8
          ⟨rookA1.position.getRow + d.row, rookA1.position.getCol + d.col,
            Position.mk (rookA1.position.getCol + d.col) (rookA1.position.getRow + d.row),
            []⟩ = .ok w ∧
        (w.newPos.isValid = true →
          ¬ boardRookPawn.isSpace w.newPos ∧
            ∀ m ∈ w.moves, m ∉ ([] : List Move) → m.dest ≠ w.newPos)) :=
  ⟨by decide, final_emit_not_space rookA1 boardRookPawn 8 [] (by decide)⟩

theorem Move.lt_trans (a b c : Move) (h1 : a.lt b = true) (h2 : b.lt c = true) :
    a.lt c = true := by
  obtain ⟨⟨a1, a2⟩, ⟨a3, a4⟩, _, _, _, _⟩ := a
  obtain ⟨⟨b1, b2⟩, ⟨b3, b4⟩, _, _, _, _⟩ := b
  obtain ⟨⟨c1, c2⟩, ⟨c3, c4⟩, _, _, _, _⟩ := c
  simp only [Move.lt, Position.lt, Bool.or_eq_true, Bool.and_eq_true, decide_eq_true_eq,
    Position.mk.injEq] at h1 h2 ⊢
  omega

theorem Move.lt_asymm (a b : Move) (h1 : a.lt b = true) : b.lt a = false := by
  obtain ⟨⟨a1, a2⟩, ⟨a3, a4⟩, _, _, _, _⟩ := a
  obtain ⟨⟨b1, b2⟩, ⟨b3, b4⟩, _, _, _, _⟩ := b
  rw [← Bool.not_eq_true]
  simp only [Move.lt, Position.lt, Bool.or_eq_true, Bool.and_eq_true, decide_eq_true_eq,
    Position.mk.injEq] at h1 ⊢
  omega

theorem Move.lt_key_left (a b c : Move) (h : a.key = b.key) : a.lt c = b.lt c := by
  simp only [Move.key, Prod.mk.injEq] at h
  simp [Move.lt, h.1, h.2]

theorem Move.lt_key_right (a b c : Move) (h : a.key = b.key) : c.lt a = c.lt b := by
  simp only [Move.key, Prod.mk.injEq] at h
  simp [Move.lt, h.1, h.2]

theorem Move.lt_irrefl_of_key (a b : Move) (h : a.key = b.key) : a.lt b = false := by
  rcases hb : a.lt b with _ | _
  · rfl
  · have h1 := Move.lt_asymm a b hb
    rw [Move.lt_key_left b a a h.symm, Move.lt_key_right a b a h] at h1
    rw [h1] at hb
    exact hb.symm

theorem setInsert_isMoveSet (m : Move) :
    ∀ s : List Move, isMoveSet s → isMoveSet (setInsert m s) := by
  intro s
  induction s with
  | nil => intro _; simp [setInsert, isMoveSet]
  | cons x xs ih =>
    intro hs
    have hs' := hs
    simp only [isMoveSet, List.pairwise_cons] at hs'
    obtain ⟨hx, hxs⟩ := hs'
    rw [setInsert]
    by_cases h1 : m.lt x = true
    · simp only [h1, if_true]
      simp only [isMoveSet, List.pairwise_cons]
      refine ⟨?_, hx, hxs⟩
      intro y hy
      simp only [List.mem_cons] at hy
      rcases hy with rfl | hy
      · exact h1
      · exact Move.lt_trans m x y h1 (hx y hy)
    · by_cases h2 : x.lt m = true
      · rw [if_neg h1, if_pos h2]
        simp only [isMoveSet, List.pairwise_cons]
        refine ⟨?_, ih hxs⟩
        intro y hy
        rcases mem_setInsert m y xs hy with rfl | hy
        · exact h2
        · exact hx y hy
      · rw [if_neg h1, if_neg h2]
        exact hs

theorem insertAll_isMoveSet :
    ∀ (ms s : List Move), isMoveSet s → isMoveSet (insertAll s ms) := by
  intro ms
  induction ms with
  | nil => intro s hs; exact hs
  | cons m ms ih =>
    intro s hs
    rw [insertAll_cons]
    exact ih _ (setInsert_isMoveSet m s hs)

theorem isMoveSet_nodup (s : List Move) (hs : isMoveSet s) : s.Nodup := by
  unfold isMoveSet at hs
  refine List.Pairwise.imp ?_ hs
  intro a b hab heq
  subst heq
  have := Move.lt_irrefl_of_key a a rfl
  rw [this] at hab
  exact Bool.false_ne_true hab

theorem setInsert_absorb (m : Move) :
    ∀ s : List Move, isMoveSet s → (∃ x ∈ s, x.key = m.key) → setInsert m s = s := by
  intro s
  induction s with
  | nil => rintro _ ⟨x, hx, _⟩; simp at hx
  | cons y ys ih =>
    rintro hs ⟨x, hx, hk⟩
    have hs' := hs
    simp only [isMoveSet, List.pairwise_cons] at hs'
    obtain ⟨hy, hys⟩ := hs'
    rw [setInsert]
    simp only [List.mem_cons] at hx
    rcases hx with rfl | hx
    · have h1 : m.lt x = false := Move.lt_irrefl_of_key m x hk.symm
      have h2 : x.lt m = false := Move.lt_irrefl_of_key x m hk
      simp [h1, h2]
    · have hyx : y.lt x = true := hy x hx
      have h2 : y.lt m = true := by rw [← Move.lt_key_right x m y hk]; exact hyx
      have h1 : m.lt y = false := Move.lt_asymm y m h2
      simp only [h1, h2, if_true]
      rw [ih hys ⟨x, hx, hk⟩]
      simp

theorem insertAll_absorb :
    ∀ (ms s : List Move), isMoveSet s → (∀ m ∈ ms, ∃ x ∈ s, x.key = m.key) →
      insertAll s ms = s := by
  intro ms
  induction ms with
  | nil => intro s _ _; rfl
  | cons m ms ih =>
    intro s hs h
    rw [insertAll_cons, setInsert_absorb m s hs (h m (List.mem_cons_self _ _))]
    exact ih s hs (fun a ha => h a (List.mem_cons_of_mem _ ha))

theorem insertAll_twice (ms s : List Move) (hs : isMoveSet s) :
    insertAll (insertAll s ms) ms = insertAll s ms := by
  apply insertAll_absorb ms _ (insertAll_isMoveSet ms s hs)
  intro m hm
  obtain ⟨y, hy, h1, h2⟩ := key_insertAll m ms s hm
  exact ⟨y, hy, by simp [Move.key, h1, h2]⟩

theorem insertAll_fresh (m : Move) :
    ∀ (ms s : List Move), isMoveSet s → m ∈ insertAll s ms → m ∉ s →
      ∀ x ∈ s, x.key ≠ m.key := by
  intro ms
  induction ms with
  | nil => intro s _ hm hn; exact absurd hm hn
  | cons a ms ih =>
    intro s hs hm hn x hx hk
    rw [insertAll_cons] at hm
    by_cases hin : m ∈ setInsert a s
    · rcases mem_setInsert a m s hin with h | h
      · subst h
        rw [setInsert_absorb m s hs ⟨x, hx, hk⟩] at hin
        exact hn hin
      · exact hn h
    · exact ih (setInsert a s) (setInsert_isMoveSet a s hs) hm hin x
        (subset_setInsert a x s hx) hk

/-- C12: with fuel for eight loop iterations per ray, for every board, piece
state and well-formed initial set, two calls of `Rook::getMoves` (and of
`Queen::getMoves`) on the same piece and board return the same set, whatever
their fuel budgets, and a further call into the set the first call returned
returns that set unchanged. -/
theorem getMoves_idempotent (self : Piece) (board : Board) (fuel fuel2 : Nat)
    (possible : List Move) (hf : 8 ≤ fuel) (hf2 : 8 ≤ fuel2) (hs : isMoveSet possible) :
    (∃ s, Rook.getMoves self fuel possible board = .ok s ∧
      Rook.getMoves self fuel2 possible board = .ok s ∧
      Rook.getMoves self fuel2 s board = .ok s) ∧
    (∃ s, Queen.getMoves self fuel possible board = .ok s ∧
      Queen.getMoves self fuel2 possible board = .ok s ∧
      Queen.getMoves self fuel2 s board = .ok s) := by
  constructor
  · refine ⟨_, rook_getMoves_eq self fuel possible board (Or.inl hf),
      rook_getMoves_eq self fuel2 possible board (Or.inl hf2), ?_⟩
    rw [rook_getMoves_eq self fuel2 _ board (Or.inl hf2), insertAll_twice _ _ hs]
  · refine ⟨_, queen_getMoves_eq self fuel possible board (Or.inl hf),
      queen_getMoves_eq self fuel2 possible board (Or.inl hf2), ?_⟩
    rw [queen_getMoves_eq self fuel2 _ board (Or.inl hf2), insertAll_twice _ _ hs]

/-- C12, at the Rook scenario of the specification, from the empty set. -/
theorem getMoves_idempotent_witness :
    8 ≤ 8 ∧ 8 ≤ 9 ∧ isMoveSet [] ∧
    (∃ s, Rook.getMoves rookA1 8 [] boardRookPawn = .ok s ∧
      Rook.getMoves rookA1 9 [] boardRookPawn = .ok s ∧
      Rook.getMoves rookA1 9 s boardRookPawn = .ok s) ∧
    (∃ s, Queen.getMoves rookA1 8 [] boardRookPawn = .ok s ∧
      Queen.getMoves rookA1 9 [] boardRookPawn = .ok s ∧
      Queen.getMoves rookA1 9 s boardRookPawn = .ok s) :=
  ⟨by decide, by decide, List.Pairwise.nil,
    getMoves_idempotent rookA1 boardRookPawn 8 9 [] (by decide) (by decide) List.Pairwise.nil⟩

theorem insertAll_frame (mk : Position → Move) (hdst : ∀ q, (mk q).dest = q)
    (ts : List Position) (s : List Move) (hs : isMoveSet s) (m : Move) :
    m ∈ insertAll s (ts.map mk) ↔
      m ∈ s ∨ (m ∈ insertAll [] (ts.map mk) ∧ ∀ x ∈ s, x.key ≠ m.key) := by
  constructor
  · intro hm
    by_cases hin : m ∈ s
    · exact Or.inl hin
    · right
      refine ⟨?_, insertAll_fresh m _ s hs hm hin⟩
      rw [mem_insertAll_targets mk hdst]
      exact mem_targets_moves mk ts s m hm hin
  · rintro (hm | ⟨hm, hfresh⟩)
    · exact subset_insertAll m _ s hm
    · rw [mem_insertAll_targets mk hdst] at hm
      obtain ⟨q, hq, rfl⟩ := hm
      obtain ⟨y, hy, h1, h2⟩ := key_insertAll (mk q) (ts.map mk) s (List.mem_map_of_mem mk hq)
      rcases mem_insertAll y _ _ hy with h | h
      · exact absurd (by simp [Move.key, h1, h2]) (hfresh y h)
      · simp only [List.mem_map] at h
        obtain ⟨t, _, rfl⟩ := h
        rw [hdst, hdst] at h2
        rw [← h2]
        exact hy

theorem frame_union (ms s s0 : List Move)
    (h : ∀ m, m ∈ s ↔ m ∈ ms ∨ (m ∈ s0 ∧ ∀ x ∈ ms, x.key ≠ m.key))
    (hcompat : ∀ x ∈ ms, ∀ m ∈ s0, x.key = m.key → x = m) :
    ∀ m, m ∈ s ↔ m ∈ ms ∨ m ∈ s0 := by
  intro m
  rw [h m]
  constructor
  · rintro (hm | ⟨hm, _⟩)
    · exact Or.inl hm
    · exact Or.inr hm
  · rintro (hm | hm)
    · exact Or.inl hm
    · by_cases hk : ∃ x ∈ ms, x.key = m.key
      · obtain ⟨x, hx, hxk⟩ := hk
        have := hcompat x hx m hm hxk
        subst this
        exact Or.inl hx
      · right
        refine ⟨hm, ?_⟩
        intro x hx hxk
        exact hk ⟨x, hx, hxk⟩

/-- C19, the claim refuted: called into the well-formed set that holds
`clashMove`, `Rook::getMoves` in the Rook scenario does not add the move it
generates onto (0,1) from the empty set, because the set already holds a move
with that (source, destination) pair; the result is not the plain union of
the input with the moves generated from the empty set. -/
theorem getMoves_union_counterexample :
    isMoveSet [clashMove] ∧
    ∃ s s0, Rook.getMoves rookA1 8 [clashMove] boardRookPawn = .ok s ∧
      Rook.getMoves rookA1 8 [] boardRookPawn = .ok s0 ∧
      (∃ m ∈ s0, m.dest = Position.mk 0 1 ∧ m ∉ s) ∧
      ¬ (∀ m, m ∈ s ↔ m ∈ [clashMove] ∨ m ∈ s0) := by
  refine ⟨List.pairwise_singleton _ _, _, _, rfl, rfl, ?_, ?_⟩
  · decide
  · intro h
    exact absurd
      ((h (Move.mk (Position.mk 0 0) (Position.mk 0 1) PieceType.INVALID PieceType.SPACE
        MoveType.MOVE true)).2 (Or.inr (by decide)))
      (by decide)

/-- C19 as amended: with fuel for eight loop iterations per ray, for every
board, piece state and well-formed input set `possible`, a call of
`Rook::getMoves` (and of `Queen::getMoves`) returns; the piece after the call
is the piece before it, with the same position, colour, `nMoves` and
`lastMove`; the returned set keeps every move of `possible` and is `possible`
united with the set generated from the empty set under the set's own
equivalence: a move is in the result iff it is in `possible`, or it is
generated from the empty set and no move of `possible` has its (source,
destination) pair. When no move of `possible` shares that pair with a
different generated move, the result is the plain union. -/
theorem getMoves_frame (self : Piece) (board : Board) (fuel : Nat)
    (possible : List Move) (hf : 8 ≤ fuel) (hs : isMoveSet possible) :
    (∃ st s0, Rook.call ⟨self, possible⟩ fuel board = .ok st ∧
      Rook.getMoves self fuel possible board = .ok st.moves ∧
      Rook.getMoves self fuel [] board = .ok s0 ∧
      (st.self = self ∧ st.self.position = self.position ∧ st.self.fWhite = self.fWhite ∧
        st.self.nMoves = self.nMoves ∧ st.self.lastMove = self.lastMove) ∧
      (∀ m ∈ possible, m ∈ st.moves) ∧
      (∀ m, m ∈ st.moves ↔ m ∈ possible ∨ (m ∈ s0 ∧ ∀ x ∈ possible, x.key ≠ m.key)) ∧
      ((∀ x ∈ possible, ∀ m ∈ s0, x.key = m.key → x = m) →
        ∀ m, m ∈ st.moves ↔ m ∈ possible ∨ m ∈ s0)) ∧
    (∃ st s0, Queen.call ⟨self, possible⟩ fuel board = .ok st ∧
      Queen.getMoves self fuel possible board = .ok st.moves ∧
      Queen.getMoves self fuel [] board = .ok s0 ∧
      (st.self = self ∧ st.self.position = self.position ∧ st.self.fWhite = self.fWhite ∧
        st.self.nMoves = self.nMoves ∧ st.self.lastMove = self.lastMove) ∧
      (∀ m ∈ possible, m ∈ st.moves) ∧
      (∀ m, m ∈ st.moves ↔ m ∈ possible ∨ (m ∈ s0 ∧ ∀ x ∈ possible, x.key ≠ m.key)) ∧
      ((∀ x ∈ possible, ∀ m ∈ s0, x.key = m.key → x = m) →
        ∀ m, m ∈ st.moves ↔ m ∈ possible ∨ m ∈ s0)) := by
  constructor
  · have h := insertAll_frame _ (rook_moveTo_dest self board)
      (slideTargets board self.fWhite self.position Rook.steps) possible hs
    have hrun := rook_getMoves_eq self fuel possible board (Or.inl hf)
    refine ⟨⟨self, _⟩, _, ?_, hrun, rook_getMoves_eq self fuel [] board (Or.inl hf),
      ⟨rfl, rfl, rfl, rfl, rfl⟩, fun m hm => subset_insertAll m _ _ hm, h,
      frame_union _ _ _ h⟩
    simp only [Rook.call, hrun]
    rfl
  · have h := insertAll_frame _ (queen_moveTo_dest self board)
      (slideTargets board self.fWhite self.position Queen.steps) possible hs
    have hrun := queen_getMoves_eq self fuel possible board (Or.inl hf)
    refine ⟨⟨self, _⟩, _, ?_, hrun, queen_getMoves_eq self fuel [] board (Or.inl hf),
      ⟨rfl, rfl, rfl, rfl, rfl⟩, fun m hm => subset_insertAll m _ _ hm, h,
      frame_union _ _ _ h⟩
    simp only [Queen.call, hrun]
    rfl

/-- C14, the claim refuted: in the Rook scenario the square (0,1) is SPACE and
the move onto it carries the tag SPACE in its captured-type slot, not the
INVALID sentinel. -/
theorem rook_space_capture_counterexample :
    ∃ s, Rook.getMoves rookA1 7 [] boardRookPawn = .ok s ∧
      boardRookPawn.isSpace (Position.mk 0 1) ∧
      (∃ m ∈ s, m.dest = Position.mk 0 1) ∧
      ∀ m ∈ s, m.dest = Position.mk 0 1 →
        m.capture = PieceType.SPACE ∧ m.capture ≠ PieceType.INVALID :=
  ⟨_, rfl, by decide, by decide, by decide⟩

/-- C14 as amended: with fuel for eight loop iterations per ray, every move
that `Rook::getMoves` adds onto a SPACE square has the kind `MOVE`, and its
captured-type slot holds the tag SPACE that the board reports for the square;
the INVALID sentinel sits in the other piece-type slot. -/
theorem rook_getMoves_onto_space (self : Piece) (board : Board) (fuel : Nat)
    (possible : List Move) (hf : 8 ≤ fuel) :
    ∃ s, Rook.getMoves self fuel possible board = .ok s ∧
      ∀ m ∈ s, m ∉ possible → board.isSpace m.dest →
        m.moveType = MoveType.MOVE ∧ m.capture = PieceType.SPACE ∧
          m.promote = PieceType.INVALID := by
  refine ⟨_, rook_getMoves_eq self fuel possible board (Or.inl hf), ?_⟩
  intro m hm hnew hsp
  obtain ⟨q, _, rfl⟩ := mem_targets_moves _ _ _ m hm hnew
  rw [rook_moveTo_dest] at hsp
  exact ⟨rfl, hsp, rfl⟩

/-- C14 as amended, at the Rook scenario of the specification. -/
theorem rook_getMoves_onto_space_witness :
    8 ≤ 8 ∧
    ∃ s, Rook.getMoves rookA1 8 [] boardRookPawn = .ok s ∧
      ∀ m ∈ s, m ∉ ([] : List Move) → boardRookPawn.isSpace m.dest →
        m.moveType = MoveType.MOVE ∧ m.capture = PieceType.SPACE ∧
          m.promote = PieceType.INVALID :=
  ⟨by decide, rook_getMoves_onto_space rookA1 boardRookPawn 8 [] (by decide)⟩

/-- C19 as amended, at the Rook scenario of the specification, for the input
set that holds `clashMove`. -/
theorem getMoves_frame_witness :
    8 ≤ 8 ∧ isMoveSet [clashMove] ∧
    ((∃ st s0, Rook.call ⟨rookA1, [clashMove]⟩ 8 boardRookPawn = .ok st ∧
      Rook.getMoves rookA1 8 [clashMove] boardRookPawn = .ok st.moves ∧
      Rook.getMoves rookA1 8 [] boardRookPawn = .ok s0 ∧
      (st.self = rookA1 ∧ st.self.position = rookA1.position ∧
        st.self.fWhite = rookA1.fWhite ∧ st.self.nMoves = rookA1.nMoves ∧
        st.self.lastMove = rookA1.lastMove) ∧
      (∀ m ∈ [clashMove], m ∈ st.moves) ∧
      (∀ m, m ∈ st.moves ↔
        m ∈ [clashMove] ∨ (m ∈ s0 ∧ ∀ x ∈ [clashMove], x.key ≠ m.key)) ∧
      ((∀ x ∈ [clashMove], ∀ m ∈ s0, x.key = m.key → x = m) →
        ∀ m, m ∈ st.moves ↔ m ∈ [clashMove] ∨ m ∈ s0)) ∧
    (∃ st s0, Queen.call ⟨rookA1, [clashMove]⟩ 8 boardRookPawn = .ok st ∧
      Queen.getMoves rookA1 8 [clashMove] boardRookPawn = .ok st.moves ∧
      Queen.getMoves rookA1 8 [] boardRookPawn = .ok s0 ∧
      (st.self = rookA1 ∧ st.self.position = rookA1.position ∧
        st.self.fWhite = rookA1.fWhite ∧ st.self.nMoves = rookA1.nMoves ∧
        st.self.lastMove = rookA1.lastMove) ∧
      (∀ m ∈ [clashMove], m ∈ st.moves) ∧
      (∀ m, m ∈ st.moves ↔
        m ∈ [clashMove] ∨ (m ∈ s0 ∧ ∀ x ∈ [clashMove], x.key ≠ m.key)) ∧
      ((∀ x ∈ [clashMove], ∀ m ∈ s0, x.key = m.key → x = m) →
        ∀ m, m ∈ st.moves ↔ m ∈ [clashMove] ∨ m ∈ s0))) :=
  ⟨by decide, List.pairwise_singleton _ _,
    getMoves_frame rookA1 boardRookPawn 8 [clashMove] (by decide)
      (List.pairwise_singleton _ _)⟩

theorem rayTargets_congr (b1 b2 : Board) (white : Bool) (dc dr : Int)
    (htype : ∀ q : Position, q.isValid = true → (b1 q).type = (b2 q).type)
    (hcol : ∀ q : Position, q.isValid = true → (b1 q).type ≠ PieceType.SPACE →
      (b1 q).fWhite = (b2 q).fWhite) :
    ∀ (n : Nat) (c r : Int),
      rayTargets b1 white dc dr n c r = rayTargets b2 white dc dr n c r := by
  intro n
  induction n with
  | zero => intro c r; rfl
  | succ n ih =>
    intro c r
    rw [rayTargets, rayTargets]
    by_cases hv : (Position.mk c r).isValid = true
    · have ht := htype _ hv
      by_cases hs : (b1 (Position.mk c r)).type = PieceType.SPACE
      · have hs2 : (b2 (Position.mk c r)).type = PieceType.SPACE := ht ▸ hs
        simp only [hv, hs, hs2, if_true, ih]
      · have hs2 : ¬ (b2 (Position.mk c r)).type = PieceType.SPACE := ht ▸ hs
        have hc := hcol _ hv hs
        simp only [hv, hs, hs2, if_true, if_false, hc]
    · simp [hv]

theorem slideTargets_congr (b1 b2 : Board) (white : Bool) (p : Position)
    (ds : List (Int × Int))
    (htype : ∀ q : Position, q.isValid = true → (b1 q).type = (b2 q).type)
    (hcol : ∀ q : Position, q.isValid = true → (b1 q).type ≠ PieceType.SPACE →
      (b1 q).fWhite = (b2 q).fWhite) :
    slideTargets b1 white p ds = slideTargets b2 white p ds := by
  simp only [slideTargets, rayTargets_congr b1 b2 white _ _ htype hcol]

/-- C15: with fuel for eight loop iterations per ray, for every piece state
and initial set and every two boards that agree, on each of the 64 squares,
on the piece type and, where the type is not SPACE, on the colour,
`Rook::getMoves` returns the same set on both boards, and so does
`Queen::getMoves`. -/
theorem getMoves_space_colour (self : Piece) (b1 b2 : Board) (fuel : Nat)
    (possible : List Move) (hf : 8 ≤ fuel)
    (htype : ∀ q : Position, q.isValid = true → (b1 q).type = (b2 q).type)
    (hcol : ∀ q : Position, q.isValid = true → (b1 q).type ≠ PieceType.SPACE →
      (b1 q).fWhite = (b2 q).fWhite) :
    (∃ s, Rook.getMoves self fuel possible b1 = .ok s ∧
      Rook.getMoves self fuel possible b2 = .ok s) ∧
    (∃ s, Queen.getMoves self fuel possible b1 = .ok s ∧
      Queen.getMoves self fuel possible b2 = .ok s) := by
  constructor
  · refine ⟨_, rook_getMoves_eq self fuel possible b1 (Or.inl hf), ?_⟩
    rw [rook_getMoves_eq self fuel possible b2 (Or.inl hf),
      slideTargets_congr b1 b2 _ _ _ htype hcol]
    congr 2
    apply List.map_congr_left
    intro q hq
    have hv := (slideTargets_sound b2 _ _ q _
      (fun d hd => Or.inl ((mem_Rook_steps d).1 hd)) hq).1
    simp [Rook.moveTo, Piece.getType, htype q hv]
  · refine ⟨_, queen_getMoves_eq self fuel possible b1 (Or.inl hf), ?_⟩
    rw [queen_getMoves_eq self fuel possible b2 (Or.inl hf),
      slideTargets_congr b1 b2 _ _ _ htype hcol]
    congr 2
    apply List.map_congr_left
    intro q hq
    have hv := (slideTargets_sound b2 _ _ q _
      (fun d hd => (mem_Queen_steps d).1 hd) hq).1
    simp [Queen.moveTo, Piece.getType, htype q hv]

theorem recolourSpace_type (b : Board) (w : Bool) (q : Position) :
    (b q).type = (b.recolourSpace w q).type := by
  unfold Board.recolourSpace
  split <;> rfl

theorem recolourSpace_colour (b : Board) (w : Bool) (q : Position)
    (h : (b q).type ≠ PieceType.SPACE) : (b q).fWhite = (b.recolourSpace w q).fWhite := by
  unfold Board.recolourSpace
  rw [if_neg h]

/-- C15, at the Rook scenario of the specification against the same board
with every SPACE square reported black. -/
theorem getMoves_space_colour_witness :
    8 ≤ 8 ∧
    (∀ q : Position, q.isValid = true →
      (boardRookPawn q).type = (boardRookPawn.recolourSpace false q).type) ∧
    (∀ q : Position, q.isValid = true → (boardRookPawn q).type ≠ PieceType.SPACE →
      (boardRookPawn q).fWhite = (boardRookPawn.recolourSpace false q).fWhite) ∧
    ((∃ s, Rook.getMoves rookA1 8 [] boardRookPawn = .ok s ∧
      Rook.getMoves rookA1 8 [] (boardRookPawn.recolourSpace false) = .ok s) ∧
    (∃ s, Queen.getMoves rookA1 8 [] boardRookPawn = .ok s ∧
      Queen.getMoves rookA1 8 [] (boardRookPawn.recolourSpace false) = .ok s)) :=
  ⟨by decide, fun q _ => recolourSpace_type _ _ q, fun q _ h => recolourSpace_colour _ _ q h,
    getMoves_space_colour rookA1 boardRookPawn (boardRookPawn.recolourSpace false) 8 []
      (by decide) (fun q _ => recolourSpace_type _ _ q)
      (fun q _ h => recolourSpace_colour _ _ q h)⟩

theorem insertAll_targets_eq_nil (mk : Position → Move) (hdst : ∀ q, (mk q).dest = q)
    (ts : List Position) : insertAll [] (ts.map mk) = [] ↔ ts = [] := by
  constructor
  · intro h
    rw [List.eq_nil_iff_forall_not_mem]
    intro q hq
    have := (mem_destinations_insertAll mk hdst ts q).2 hq
    rw [h] at this
    simp [destinations] at this
  · rintro rfl
    rfl

/-- C16: for a Rook on a valid square, with fuel for seven loop iterations per
ray, `Rook::getMoves` from the empty set returns, and the set it returns is
empty iff each of the four orthogonally adjacent squares is off the board or
holds a piece of the Rook's own colour. -/
theorem rook_getMoves_empty_iff (self : Piece) (board : Board) (fuel : Nat)
    (hp : self.position.isValid = true) (hf : 7 ≤ fuel) :
    ∃ s, Rook.getMoves self fuel [] board = .ok s ∧
      (s = [] ↔ ∀ dc dr : Int, isOrthogonalUnit dc dr →
        (self.position.along dc dr 1).isValid = false ∨
          board.isFriend self.fWhite (self.position.along dc dr 1)) := by
  have hu : ∀ d ∈ Rook.steps, isOrthogonalUnit d.1 d.2 ∨ isDiagonalUnit d.1 d.2 :=
    fun d hd => Or.inl ((mem_Rook_steps d).1 hd)
  refine ⟨_, rook_getMoves_eq self fuel [] board (Or.inr ⟨hf, hp⟩), ?_⟩
  rw [insertAll_targets_eq_nil _ (rook_moveTo_dest self board), List.eq_nil_iff_forall_not_mem]
  constructor
  · intro h dc dr hd
    by_contra hcon
    simp only [not_or, Bool.not_eq_false] at hcon
    obtain ⟨hv, hnf⟩ := hcon
    apply h (self.position.along dc dr 1)
    rw [mem_slideTargets_valid board _ _ _ _ hp hu]
    refine ⟨(dc, dr), (mem_Rook_steps (dc, dr)).2 hd, 1, ⟨le_refl 1, hv, ?_, ?_⟩, rfl⟩
    · intro j h1 h2; omega
    · by_cases hs : board.isSpace (self.position.along dc dr 1)
      · exact Or.inl hs
      · right
        refine ⟨hs, ?_⟩
        intro hc
        exact hnf ⟨hs, hc⟩
  · intro h q hq
    rw [mem_slideTargets_valid board _ _ _ _ hp hu] at hq
    obtain ⟨d, hd, k, ⟨hk1, hkv, hpath, hend⟩, _⟩ := hq
    have hd' := (mem_Rook_steps d).1 hd
    rcases h d.1 d.2 hd' with hinv | hfr
    · have := along_between self.position d.1 d.2 1 k (Or.inl hd') hp hkv hk1
      rw [this] at hinv
      exact Bool.noConfusion hinv
    · rcases Nat.eq_or_lt_of_le hk1 with h1 | h1
      · subst h1
        rcases hend with hs | he
        · exact hfr.1 hs
        · exact he.2 hfr.2
      · exact hfr.1 (hpath 1 (le_refl 1) h1)

/-- C16, for the white Rook on (0,0) boxed in by white pawns on (0,1) and
(1,0): the set is empty. -/
theorem rook_getMoves_empty_iff_witness :
    rookA1.position.isValid = true ∧ 7 ≤ 7 ∧
    (∃ s, Rook.getMoves rookA1 7 [] boardRookBoxed = .ok s ∧
      (s = [] ↔ ∀ dc dr : Int, isOrthogonalUnit dc dr →
        (rookA1.position.along dc dr 1).isValid = false ∨
          boardRookBoxed.isFriend rookA1.fWhite (rookA1.position.along dc dr 1))) ∧
    Rook.getMoves rookA1 7 [] boardRookBoxed = .ok [] :=
  ⟨by decide, by decide,
    rook_getMoves_empty_iff rookA1 boardRookBoxed 7 (by decide) (by decide), rfl⟩

theorem along_on_line (p : Position) (dc dr : Int) (k : Nat)
    (hd : isOrthogonalUnit dc dr ∨ isDiagonalUnit dc dr) (hk : 1 ≤ k) :
    ((p.along dc dr k).col = p.col ∨ (p.along dc dr k).row = p.row) ↔
      isOrthogonalUnit dc dr := by
  obtain ⟨hc, hr, hne⟩ := unit_cases dc dr hd
  have m1 := unit_mul k dc hc
  have m2 := unit_mul k dr hr
  simp only [Position.along, isOrthogonalUnit]
  omega

/-- C17: for every board, colour and valid square, with fuel for seven loop
iterations per ray, `Rook::getMoves` and `Queen::getMoves` for a piece of
that colour on that square both return from the empty set, and the
destinations of the Rook are exactly the destinations of the Queen that lie
on the column or the row of the square. -/
theorem rook_refines_queen (self : Piece) (board : Board) (fuel : Nat)
    (hp : self.position.isValid = true) (hf : 7 ≤ fuel) :
    ∃ sr sq, Rook.getMoves self fuel [] board = .ok sr ∧
      Queen.getMoves self fuel [] board = .ok sq ∧
      ∀ q : Position, q ∈ destinations sr ↔
        (q ∈ destinations sq ∧ (q.col = self.position.col ∨ q.row = self.position.row)) := by
  refine ⟨_, _, rook_getMoves_eq self fuel [] board (Or.inr ⟨hf, hp⟩),
    queen_getMoves_eq self fuel [] board (Or.inr ⟨hf, hp⟩), ?_⟩
  intro q
  rw [mem_destinations_insertAll _ (rook_moveTo_dest self board),
    mem_destinations_insertAll _ (queen_moveTo_dest self board),
    mem_slideTargets, mem_slideTargets]
  constructor
  · rintro ⟨d, hd, k, h1, h8, hq, hrest⟩
    have hd' := (mem_Rook_steps d).1 hd
    refine ⟨⟨d, (mem_Queen_steps d).2 (Or.inl hd'), k, h1, h8, hq, hrest⟩, ?_⟩
    rw [hq]
    exact (along_on_line self.position d.1 d.2 k (Or.inl hd') h1).2 hd'
  · rintro ⟨⟨d, hd, k, h1, h8, hq, hrest⟩, hline⟩
    have hd' := (mem_Queen_steps d).1 hd
    rw [hq] at hline
    have ho := (along_on_line self.position d.1 d.2 k hd' h1).1 hline
    exact ⟨d, (mem_Rook_steps d).2 ho, k, h1, h8, hq, hrest⟩

/-- C17, at the Queen scenario of the specification. -/
theorem rook_refines_queen_witness :
    queenE5.position.isValid = true ∧ 7 ≤ 7 ∧
    ∃ sr sq, Rook.getMoves queenE5 7 [] boardQueenFriend = .ok sr ∧
      Queen.getMoves queenE5 7 [] boardQueenFriend = .ok sq ∧
      ∀ q : Position, q ∈ destinations sr ↔
        (q ∈ destinations sq ∧
          (q.col = queenE5.position.col ∨ q.row = queenE5.position.row)) :=
  ⟨by decide, by decide, rook_refines_queen queenE5 boardQueenFriend 7 (by decide) (by decide)⟩

theorem setInsert_length_le (m : Move) :
    ∀ s : List Move, (setInsert m s).length ≤ s.length + 1 := by
  intro s
  induction s with
  | nil => simp [setInsert]
  | cons x xs ih =>
    rw [setInsert]
    split
    · simp
    · split
      · simp only [List.length_cons]; omega
      · simp

theorem insertAll_length_le :
    ∀ (ms s : List Move), (insertAll s ms).length ≤ s.length + ms.length := by
  intro ms
  induction ms with
  | nil => intro s; simp [insertAll_nil]
  | cons m ms ih =>
    intro s
    rw [insertAll_cons]
    have h1 := ih (setInsert m s)
    have h2 := setInsert_length_le m s
    simp only [List.length_cons]
    omega

theorem rayTargets_length_le (board : Board) (white : Bool) (dc dr : Int) :
    ∀ (n : Nat) (c r : Int),
      (rayTargets board white dc dr n c r).length ≤ (openRay dc dr n c r).length := by
  intro n
  induction n with
  | zero => intro c r; simp [rayTargets, openRay]
  | succ n ih =>
    intro c r
    rw [rayTargets, openRay]
    by_cases hv : (Position.mk c r).isValid = true
    · simp only [hv, if_true]
      split
      · simp only [List.length_cons]
        have := ih (c + dc) (r + dr)
        omega
      · split <;> simp
    · simp [hv]

theorem slideTargets_length_le (board : Board) (white : Bool) (p : Position) :
    ∀ ds : List (Int × Int),
      (slideTargets board white p ds).length ≤ (openTargets p ds).length := by
  intro ds
  induction ds with
  | nil => simp [slideTargets, openTargets]
  | cons d ds ih =>
    simp only [slideTargets, openTargets, List.flatMap_cons, List.length_append] at ih ⊢
    have := rayTargets_length_le board white d.1 d.2 8 (p.col + d.1) (p.row + d.2)
    omega

theorem openTargets_queen (p : Position) (hp : p.isValid = true) :
    (openTargets p Queen.steps).length ≤ 27 := by
  obtain ⟨c, r⟩ := p
  rw [Position.isValid_iff] at hp
  simp only at hp
  obtain ⟨h1, h2, h3, h4⟩ := hp
  interval_cases c <;> interval_cases r <;> decide

theorem rook_loop_exit_seven (self : Piece) (board : Board) (d : Relative) (fuel : Nat)
    (possible : List Move) (hd : d.col ≠ 0 ∨ d.row ≠ 0)
    (hp : self.position.isValid = true) (hf : 7 ≤ fuel) :
    ∃ w, whileLoop (Rook.loopCond board) (Rook.loopBody self board d) fuel
        ⟨self.position.getRow + d.row, self.position.getCol + d.col,
          Position.mk (self.position.getCol + d.col) (self.position.getRow + d.row),
          possible⟩ = .ok w := by
  have hrun := rook_walk_eq self board d 7 fuel (self.position.getCol + d.col)
    (self.position.getRow + d.row) possible hf (span_seven self.position d.col d.row hp hd)
  rcases hw : whileLoop (Rook.loopCond board) (Rook.loopBody self board d) fuel
      ⟨self.position.getRow + d.row, self.position.getCol + d.col,
        Position.mk (self.position.getCol + d.col) (self.position.getRow + d.row),
        possible⟩ with e | w
  · rw [hw] at hrun
    simp at hrun
  · exact ⟨w, rfl⟩

theorem queen_loop_exit_seven (self : Piece) (board : Board) (d : RelativePos) (fuel : Nat)
    (possible : List Move) (hd : d.col ≠ 0 ∨ d.row ≠ 0)
    (hp : self.position.isValid = true) (hf : 7 ≤ fuel) :
    ∃ w, whileLoop (Queen.loopCond board) (Queen.loopBody self board d) fuel
        ⟨self.position.getRow + d.row, self.position.getCol + d.col,
          Position.mk (self.position.getCol + d.col) (self.position.getRow + d.row),
          possible⟩ = .ok w := by
  have hrun := queen_walk_eq self board d 7 fuel (self.position.getCol + d.col)
    (self.position.getRow + d.row) possible hf (span_seven self.position d.col d.row hp hd)
  rcases hw : whileLoop (Queen.loopCond board) (Queen.loopBody self board d) fuel
      ⟨self.position.getRow + d.row, self.position.getCol + d.col,
        Position.mk (self.position.getCol + d.col) (self.position.getRow + d.row),
        possible⟩ with e | w
  · rw [hw] at hrun
    simp at hrun
  · exact ⟨w, rfl⟩

/-- C18: for a piece on a valid square, every board and every initial set,
each ray loop of `Rook::getMoves` and of `Queen::getMoves` exits within a
budget of seven body executions; and from the empty set the Rook's result
holds at most 14 moves and the Queen's at most 27, without repetition. -/
theorem getMoves_bounds (self : Piece) (board : Board) (possible : List Move)
    (hp : self.position.isValid = true) :
    (∀ d ∈ Rook.moves,
      ∃ w, whileLoop (Rook.loopCond board) (Rook.loopBody self board d) 7
          ⟨self.position.getRow + d.row, self.position.getCol + d.col,
            Position.mk (self.position.getCol + d.col) (self.position.getRow + d.row),
            possible⟩ = .ok w) ∧
    (∀ d ∈ Queen.possible,
      ∃ w, whileLoop (Queen.loopCond board) (Queen.loopBody self board d) 7
          ⟨self.position.getRow + d.row, self.position.getCol + d.col,
            Position.mk (self.position.getCol + d.col) (self.position.getRow + d.row),
            possible⟩ = .ok w) ∧
    (∃ s, Rook.getMoves self 7 [] board = .ok s ∧ s.length ≤ 14 ∧ s.Nodup) ∧
    (∃ s, Queen.getMoves self 7 [] board = .ok s ∧ s.length ≤ 27 ∧ s.Nodup) := by
  refine ⟨fun d hd => rook_loop_exit_seven self board d 7 possible (rook_moves_ne_zero d hd)
      hp (le_refl 7),
    fun d hd => queen_loop_exit_seven self board d 7 possible (queen_possible_ne_zero d hd)
      hp (le_refl 7), ?_, ?_⟩
  · refine ⟨_, rook_getMoves_eq self 7 [] board (Or.inr ⟨le_refl 7, hp⟩), ?_,
      isMoveSet_nodup _ (insertAll_isMoveSet _ [] List.Pairwise.nil)⟩
    have h1 := insertAll_length_le
      ((slideTargets board self.fWhite self.position Rook.steps).map (Rook.moveTo self board)) []
    have h2 := slideTargets_length_le board self.fWhite self.position Rook.steps
    have h3 := (openTargets_rook self.position hp).1
    simp only [List.length_nil, List.length_map] at h1
    omega
  · refine ⟨_, queen_getMoves_eq self 7 [] board (Or.inr ⟨le_refl 7, hp⟩), ?_,
      isMoveSet_nodup _ (insertAll_isMoveSet _ [] List.Pairwise.nil)⟩
    have h1 := insertAll_length_le
      ((slideTargets board self.fWhite self.position Queen.steps).map (Queen.moveTo self board))
      []
    have h2 := slideTargets_length_le board self.fWhite self.position Queen.steps
    have h3 := openTargets_queen self.position hp
    simp only [List.length_nil, List.length_map] at h1
    omega

/-- C18, at the Queen scenario of the specification. -/
theorem getMoves_bounds_witness :
    queenE5.position.isValid = true ∧
    (∀ d ∈ Rook.moves,
      ∃ w, whileLoop (Rook.loopCond boardQueenFriend)
          (Rook.loopBody queenE5 boardQueenFriend d) 7
          ⟨queenE5.position.getRow + d.row, queenE5.position.getCol + d.col,
            Position.mk (queenE5.position.getCol + d.col) (queenE5.position.getRow + d.row),
            []⟩ = .ok w) ∧
    (∀ d ∈ Queen.possible,
      ∃ w, whileLoop (Queen.loopCond boardQueenFriend)
          (Queen.loopBody queenE5 boardQueenFriend d) 7
          ⟨queenE5.position.getRow + d.row, queenE5.position.getCol + d.col,
            Position.mk (queenE5.position.getCol + d.col) (queenE5.position.getRow + d.row),
            []⟩ = .ok w) ∧
    (∃ s, Rook.getMoves queenE5 7 [] boardQueenFriend = .ok s ∧ s.length ≤ 14 ∧ s.Nodup) ∧
    (∃ s, Queen.getMoves queenE5 7 [] boardQueenFriend = .ok s ∧ s.length ≤ 27 ∧ s.Nodup) :=
  ⟨by decide, getMoves_bounds queenE5 boardQueenFriend [] (by decide)⟩

end ChessLab
